import Mathlib

/-!
# SatsConnect core — shallow embedding and verification

Shallow embedding of the core subsystems of the SatsConnect Lightning engine
(`src/backend/rust-engine`): the channel registry (`lightning/channel_manager.rs`),
the topology graph and its BFS router (`lightning/network_graph.rs`), the channel
rebalancer (`lightning/channel_rebalancer.rs`), the payment processor
(`performance/payment_processor.rs`), the peer-failover table (`engine.rs`) and the
TTL read cache (`performance/async_lightning_engine.rs`).

Modelling conventions:
* `HashMap<String, V>` becomes an association list `List (String × V)`; the list
  order stands for the map's (arbitrary) iteration order. `HashSet<String>`
  becomes `Finset String`.
* `u64`/`u32`/`usize` become `Nat`; `saturating_sub` is `Nat` subtraction.
  Overflow of additions is not modelled (all balances in reachable states are
  far below `2^64`).
* `f64` values (balance ratios, success rates, thresholds) become exact
  rationals `ℚ`, built with `mkRat` so that they evaluate in the kernel.
  Where the source can hit an `f64` division by zero the embedding mirrors the
  IEEE outcome explicitly (see `balance_ratio_exceeds`).
* Timestamps (`DateTime<Utc>` and RFC3339 strings) become `Nat` seconds; each
  operation takes the current time `now` as an argument.
* Fallible runtime calls (`send_payment`, node balance queries) are oracles
  passed in as arguments; asynchronous loops become explicit recursion on the
  remaining retry budget.
* Freshly generated ids (`uuid::Uuid::new_v4`) become explicit arguments,
  with freshness (`List.lookup id m = none`) as a hypothesis where it matters.
-/

namespace SatsConnect

/-! ## Association-list operations mirroring `HashMap` -/

/-- `HashMap::insert`: replace the value at an existing key, otherwise add the
binding. -/
def mapInsert {α : Type} (k : String) (v : α) : List (String × α) → List (String × α)
  | [] => [(k, v)]
  | (k', v') :: rest => if k' = k then (k, v) :: rest else (k', v') :: mapInsert k v rest

/-- `HashMap::get_mut` followed by a field update: apply `f` at key `k` if
present, leave the map unchanged otherwise. -/
def mapModify {α : Type} (k : String) (f : α → α) : List (String × α) → List (String × α)
  | [] => []
  | (k', v') :: rest => if k' = k then (k', f v') :: rest else (k', v') :: mapModify k f rest

/-! ## Channel registry — `lightning/channel_manager.rs` -/

namespace ChannelManager

inductive ChannelState
  | Pending
  | Open
  | Closing
  | Closed
  | Error
  deriving DecidableEq, Repr

structure ChannelInfo where
  channel_id : String
  peer_id : String
  capacity_sats : Nat
  local_balance_sats : Nat
  remote_balance_sats : Nat
  state : ChannelState
  created_at : Nat
  updated_at : Nat
  deriving DecidableEq, Repr

structure ChannelConfig where
  min_channel_size : Nat
  max_channel_size : Nat
  max_channels_per_peer : Nat
  channel_fee_rate : Nat
  channel_timeout : Nat
  deriving DecidableEq, Repr

/-- `ChannelConfig::default()`. -/
def ChannelConfig.default : ChannelConfig :=
  { min_channel_size := 100000
    max_channel_size := 10000000
    max_channels_per_peer := 5
    channel_fee_rate := 1
    channel_timeout := 144 }

/-- The number of channels the registry holds with the given peer
(`channels.values().filter(|ch| ch.peer_id == peer_id).count()`). -/
def peer_channel_count (channels : List (String × ChannelInfo)) (peer_id : String) : Nat :=
  (channels.filter (fun pr => pr.2.peer_id = peer_id)).length

/-- `ChannelManager::create_channel`. The generated uuid is the explicit
argument `channel_id`. Returns the result together with the (possibly
unchanged) registry; the source returns `Err` without touching the map. -/
def create_channel (config : ChannelConfig) (channels : List (String × ChannelInfo))
    (peer_id : String) (capacity_sats : Nat) (channel_id : String) (now : Nat) :
    Except String String × List (String × ChannelInfo) :=
  if capacity_sats < config.min_channel_size then
    (.error "Channel size is below minimum", channels)
  else if capacity_sats > config.max_channel_size then
    (.error "Channel size exceeds maximum", channels)
  else if peer_channel_count channels peer_id ≥ config.max_channels_per_peer then
    (.error "Maximum channels per peer exceeded", channels)
  else
    let channel_info : ChannelInfo :=
      { channel_id := channel_id
        peer_id := peer_id
        capacity_sats := capacity_sats
        local_balance_sats := 0
        remote_balance_sats := capacity_sats
        state := .Pending
        created_at := now
        updated_at := now }
    (.ok channel_id, mapInsert channel_id channel_info channels)

end ChannelManager

/-! ## Peer failover table — `engine.rs` -/

namespace Engine

structure PeerNode where
  node_id : String
  address : String
  is_online : Bool
  last_seen : Nat
  connection_attempts : Nat
  /-- `f64` success rate in the source, modelled as an exact rational. -/
  success_rate : ℚ
  deriving DecidableEq, Repr

/-- `Iterator::max_by` keyed on `success_rate`: a left fold that keeps the
current maximum and replaces it whenever the next element is not smaller, so
that among equal maxima the last one wins (Rust's documented tie behavior). -/
def max_by_success_rate (l : List (String × PeerNode)) : Option (String × PeerNode) :=
  l.foldl
    (fun acc x =>
      match acc with
      | none => some x
      | some m => if m.2.success_rate > x.2.success_rate then some m else some x)
    none

/-- `LightningEngine::get_best_peer`: among online peers, the one with the
highest `success_rate`; `None` when no peer is online. -/
def get_best_peer (peers : List (String × PeerNode)) : Option String :=
  let online := peers.filter (fun pr => pr.2.is_online)
  if online.isEmpty then none
  else (max_by_success_rate online).map Prod.fst

/-- `LightningEngine::update_peer_status`: set the online flag and `last_seen`;
on success reset `connection_attempts` and move the rate toward 1
(`rate*0.9 + 0.1`), on failure bump `connection_attempts` and decay the rate
(`rate*0.9`). The `f64` constants 0.9 and 0.1 are modelled as exact rationals. -/
def update_peer_status (peers : List (String × PeerNode)) (node_id : String)
    (is_online : Bool) (now : Nat) : List (String × PeerNode) :=
  mapModify node_id
    (fun p =>
      if is_online then
        { p with is_online := is_online, last_seen := now, connection_attempts := 0
                 success_rate := p.success_rate * mkRat 9 10 + mkRat 1 10 }
      else
        { p with is_online := is_online, last_seen := now
                 connection_attempts := p.connection_attempts + 1
                 success_rate := p.success_rate * mkRat 9 10 })
    peers

/-- The two-peer table of the spec's failover scenario: P1 online with success
rate 0.2, P2 online with success rate 0.9. -/
def failoverPeers : List (String × PeerNode) :=
  [("P1", { node_id := "P1", address := "a1", is_online := true, last_seen := 0
            connection_attempts := 0, success_rate := mkRat 2 10 }),
   ("P2", { node_id := "P2", address := "a2", is_online := true, last_seen := 0
            connection_attempts := 0, success_rate := mkRat 9 10 })]

end Engine

/-! ## TTL read cache — `performance/async_lightning_engine.rs` -/

namespace AsyncEngine

/-- The JSON payload stored in a cache entry: either a `(u64, u64)` balance
tuple or a payment-status string (`serde_json::Value` restricted to the two
shapes this module ever stores). -/
inductive CacheVal
  | tup (a b : Nat)
  | str (s : String)
  deriving DecidableEq, Repr

structure CachedData where
  data : CacheVal
  timestamp : Nat
  ttl : Nat
  deriving DecidableEq, Repr

/-- The engine's read cache. The source uses an `LruCache` of capacity 1000;
capacity eviction only removes entries, so the association list models any
reachable cache content. -/
abbrev Cache : Type := List (String × CachedData)

/-- `AsyncLightningEngine::get_balance`. `fetch` is the underlying runtime
call (node balance queries under a 5s timeout); the returned `Bool` is `true`
exactly when that runtime call was performed. A cache hit whose payload is not
a tuple mirrors the `serde_json::from_value` error path. -/
def get_balance (cache : Cache) (now : Nat) (fetch : Except String (Nat × Nat)) :
    Except String (Nat × Nat) × Cache × Bool :=
  match List.lookup "balance" cache with
  | some cached =>
    if cached.timestamp + cached.ttl > now then
      match cached.data with
      | .tup a b => (.ok (a, b), cache, false)
      | .str _ => (.error "invalid cached balance", cache, false)
    else
      match fetch with
      | .error e => (.error e, cache, true)
      | .ok bal =>
        (.ok bal, mapInsert "balance" ⟨.tup bal.1 bal.2, now, 30⟩ cache, true)
  | none =>
    match fetch with
    | .error e => (.error e, cache, true)
    | .ok bal =>
      (.ok bal, mapInsert "balance" ⟨.tup bal.1 bal.2, now, 30⟩ cache, true)

/-- `AsyncLightningEngine::get_payment_status`. The miss path of the source is
an acknowledged placeholder that fabricates the status `"SUCCEEDED"` instead of
querying the node; the returned `Bool` is `true` exactly when that fresh path
ran. -/
def get_payment_status (cache : Cache) (payment_hash : String) (now : Nat) :
    Except String String × Cache × Bool :=
  let cache_key := "payment_status_" ++ payment_hash
  match List.lookup cache_key cache with
  | some cached =>
    if cached.timestamp + cached.ttl > now then
      match cached.data with
      | .str s => (.ok s, cache, false)
      | .tup _ _ => (.error "invalid cached status", cache, false)
    else
      (.ok "SUCCEEDED", mapInsert cache_key ⟨.str "SUCCEEDED", now, 60⟩ cache, true)
  | none =>
    (.ok "SUCCEEDED", mapInsert cache_key ⟨.str "SUCCEEDED", now, 60⟩ cache, true)

/-- Cache holding one `"balance"` entry written at `t = 0` with `ttl = 30`,
as in the spec's scenario. -/
def scenarioCache : Cache := [("balance", ⟨.tup 700000 42, 0, 30⟩)]

end AsyncEngine

/-! ## Topology graph and BFS router — `lightning/network_graph.rs` -/

namespace NetworkGraph

structure NodeInfo where
  node_id : String
  /-- The source's `alias` field; `alias` is a Lean keyword. -/
  nodeAlias : Option String
  color : Option String
  last_seen : Nat
  features : List Nat
  addresses : List String
  deriving DecidableEq, Repr

structure NetworkChannelInfo where
  channel_id : String
  node1 : String
  node2 : String
  capacity_sat : Nat
  is_enabled : Bool
  last_update : Nat
  base_fee_msat : Nat
  fee_rate_ppm : Nat
  deriving DecidableEq, Repr

/-- The source's `NetworkGraph` struct: node and channel maps. -/
structure Graph where
  nodes : List (String × NodeInfo)
  channels : List (String × NetworkChannelInfo)
  deriving DecidableEq, Repr

/-- `get_node_channels`: all channels with the node as either endpoint. -/
def get_node_channels (g : Graph) (node_id : String) : List NetworkChannelInfo :=
  (g.channels.map Prod.snd).filter
    (fun ch => ch.node1 == node_id || ch.node2 == node_id)

/-- The far endpoint of a channel as the BFS sees it from `current`
(`if channel.node1 == current { node2 } else { node1 }`). -/
def next_node (current : String) (ch : NetworkChannelInfo) : String :=
  if ch.node1 = current then ch.node2 else ch.node1

/-- The BFS working state: the `VecDeque` queue, the `HashSet` of visited
nodes and the `HashMap` of parent pointers. -/
structure BfsState where
  queue : List String
  visited : Finset String
  parent : List (String × String)

/-- One channel of the source's `for channel in get_node_channels(..)` loop:
if the far endpoint is unvisited and the channel enabled, mark it visited,
record its parent and push it on the queue. -/
def bfs_relax (current : String) (st : BfsState) (ch : NetworkChannelInfo) : BfsState :=
  let next := next_node current ch
  if next ∉ st.visited ∧ ch.is_enabled = true then
    { queue := st.queue ++ [next], visited := insert next st.visited
      parent := st.parent ++ [(next, current)] }
  else st

/-- The `while let Some(p) = parent.get(&node)` reconstruction walk. The fuel
merely bounds the chain length; `parent.length` always suffices (parent
pointers form chains of distinct keys). -/
def build_path (parent : List (String × String)) : Nat → String → List String → List String
  | 0, _, path => path
  | fuel + 1, node, path =>
    match List.lookup node parent with
    | some p => build_path parent fuel p (path ++ [node])
    | none => path

/-- Path reconstruction: walk the parent chain from `to`, push `from`,
reverse. -/
def reconstruct_path (parent : List (String × String)) (fr tgt : String) : List String :=
  ((build_path parent parent.length tgt []) ++ [fr]).reverse

/-- The `while let Some(current) = queue.pop_front()` loop. The fuel bounds
the number of iterations; `find_shortest_path` supplies enough for the loop to
run to completion (each iteration strictly decreases `bfs_measure`, proved
below). -/
def bfs_loop (g : Graph) (fr tgt : String) : Nat → BfsState → Option (List String)
  | 0, _ => none
  | fuel + 1, st =>
    match st.queue with
    | [] => none
    | current :: rest =>
      if current = tgt then some (reconstruct_path st.parent fr tgt)
      else
        bfs_loop g fr tgt fuel
          ((get_node_channels g current).foldl (bfs_relax current)
            { queue := rest, visited := st.visited, parent := st.parent })

/-- `find_shortest_path`: trivial same-node path, else BFS from `fr` with the
start node visited and queued. -/
def find_shortest_path (g : Graph) (fr tgt : String) : Option (List String) :=
  if fr = tgt then some [fr]
  else
    bfs_loop g fr tgt (2 * g.channels.length + 2)
      { queue := [fr], visited := {fr}, parent := [] }

/-- Two nodes joined by some enabled channel of the graph, in either
orientation — the reachability step the claim quantifies over. -/
def adjacent (g : Graph) (a b : String) : Prop :=
  ∃ ch ∈ g.channels.map Prod.snd, ch.is_enabled = true ∧
    ((ch.node1 = a ∧ ch.node2 = b) ∨ (ch.node1 = b ∧ ch.node2 = a))

/-- A walk of `n` enabled hops from `a` to the second node. -/
inductive Walk (g : Graph) (a : String) : String → Nat → Prop
  | nil : Walk g a a 0
  | cons {b c : String} {n : Nat} : Walk g a b n → adjacent g b c → Walk g a c (n + 1)

/-- The BFS parent chain: following parent pointers from `v` lists `v` and
its ancestors down to, but excluding, `fr`. -/
inductive PChain (parent : List (String × String)) (fr : String) :
    String → List String → Prop
  | nil : PChain parent fr fr []
  | cons {v p : String} {l : List String} :
      List.lookup v parent = some p → PChain parent fr p l →
      PChain parent fr v (v :: l)

/-- Every endpoint named by some channel of the graph. -/
def endPoints (g : Graph) : Finset String :=
  g.channels.foldr (fun pr s => insert pr.2.node1 (insert pr.2.node2 s)) ∅

/-- Every node BFS from `fr` can ever visit. -/
def allowed (g : Graph) (fr : String) : Finset String := insert fr (endPoints g)

/-- The loop measure: pending queue entries plus the nodes still
discoverable. Each BFS iteration decreases it by exactly one. -/
def bfs_measure (g : Graph) (fr : String) (st : BfsState) : Nat :=
  st.queue.length + (allowed g fr \ st.visited).card

/-- The BFS loop invariant. `hChain`/`hMin` say every visited node's parent
chain realizes a shortest enabled walk from `fr`; `hLevels` is the classic
two-level queue shape; `hClosed`/`hClosedLevel` say processed nodes have all
neighbors discovered at the next level; `hTo` says the target, once visited,
is still queued (otherwise the loop would have returned). -/
structure Inv (g : Graph) (fr tgt : String) (st : BfsState) : Prop where
  hQvis : ∀ v ∈ st.queue, v ∈ st.visited
  hQnodup : st.queue.Nodup
  hFr : fr ∈ st.visited
  hVsub : st.visited ⊆ allowed g fr
  hKeys : ∀ v, (List.lookup v st.parent).isSome = true ↔ (v ∈ st.visited ∧ v ≠ fr)
  hPadj : ∀ pr ∈ st.parent, adjacent g pr.1 pr.2
  hPval : ∀ pr ∈ st.parent, pr.2 ∈ st.visited
  hChain : ∀ v ∈ st.visited, ∃ l, PChain st.parent fr v l ∧ l.Nodup ∧ Walk g fr v l.length
  hMin : ∀ v l, PChain st.parent fr v l → ∀ n, Walk g fr v n → l.length ≤ n
  hLevels : ∃ d a b ks,
    List.Forall₂ (fun v k => ∃ l, PChain st.parent fr v l ∧ l.length = k) st.queue ks ∧
      ks = List.replicate a d ++ List.replicate b (d + 1)
  hClosed : ∀ u ∈ st.visited, u ∉ st.queue → ∀ w, adjacent g u w → w ∈ st.visited
  hClosedLevel : ∀ u ∈ st.visited, u ∉ st.queue → ∀ w, adjacent g u w →
    ∀ lu lw, PChain st.parent fr u lu → PChain st.parent fr w lw →
      lw.length ≤ lu.length + 1
  hTo : tgt ∈ st.visited → tgt ∈ st.queue

/-- The spec's three-node chain A–B–C with both edges enabled. -/
def chainGraphABC : Graph :=
  { nodes :=
      [("A", { node_id := "A", nodeAlias := none, color := none, last_seen := 0
               features := [], addresses := [] }),
       ("B", { node_id := "B", nodeAlias := none, color := none, last_seen := 0
               features := [], addresses := [] }),
       ("C", { node_id := "C", nodeAlias := none, color := none, last_seen := 0
               features := [], addresses := [] })]
    channels :=
      [("AB", { channel_id := "AB", node1 := "A", node2 := "B", capacity_sat := 1000000
                is_enabled := true, last_update := 0, base_fee_msat := 1000
                fee_rate_ppm := 1 }),
       ("BC", { channel_id := "BC", node1 := "B", node2 := "C", capacity_sat := 1000000
                is_enabled := true, last_update := 0, base_fee_msat := 1000
                fee_rate_ppm := 1 })] }

end NetworkGraph

/-! ## Channel rebalancer — `lightning/channel_rebalancer.rs` -/

namespace ChannelRebalancer

structure ChannelInfo where
  channel_id : String
  local_balance : Nat
  remote_balance : Nat
  capacity : Nat
  is_active : Bool
  last_rebalance : Option Nat
  rebalance_count : Nat
  deriving DecidableEq, Repr

inductive RebalanceStatus
  | Pending
  | InProgress
  | Completed
  | Failed
  | Cancelled
  deriving DecidableEq, Repr

structure RebalanceOperation where
  operation_id : String
  from_channel : String
  to_channel : String
  amount : Nat
  status : RebalanceStatus
  created_at : Nat
  completed_at : Option Nat
  deriving DecidableEq, Repr

/-- The rebalancer's configuration fields (its channel map is passed
separately). -/
structure Rebalancer where
  rebalance_threshold : ℚ
  min_rebalance_amount : Nat
  max_rebalance_amount : Nat
  deriving DecidableEq, Repr

/-- `ChannelRebalancer::new()`: threshold 0.1, bounds 10k and 1M sats. -/
def Rebalancer.new : Rebalancer :=
  { rebalance_threshold := mkRat 1 10
    min_rebalance_amount := 10000
    max_rebalance_amount := 1000000 }

/-- `calculate_balance_ratio` as an exact rational:
`|local_balance - capacity/2| / (capacity/2)` with `capacity/2` the source's
`u64` integer division, and 0 when `capacity = 0`. `mkRat d 0 = 0`, where the
`f64` quotient would be `inf`/NaN; the threshold comparison therefore gets its
own exact embedding `balance_ratio_exceeds` below. -/
def calculate_balance_ratio_q (channel : ChannelInfo) : ℚ :=
  if channel.capacity = 0 then 0
  else
    let ideal_balance := channel.capacity / 2
    let actual_balance := channel.local_balance
    let difference :=
      if actual_balance > ideal_balance then actual_balance - ideal_balance
      else ideal_balance - actual_balance
    mkRat difference ideal_balance

/-- The source's `calculate_balance_ratio(channel) > threshold` test under
`f64` semantics. When `capacity ≠ 0` but `capacity/2 = 0` (i.e. capacity 1)
the `f64` quotient is `inf` for a nonzero difference (exceeding every finite
threshold) and NaN for a zero difference (exceeding none); otherwise it is the
exact rational comparison. -/
def balance_ratio_exceeds (threshold : ℚ) (channel : ChannelInfo) : Bool :=
  if channel.capacity = 0 then decide ((0 : ℚ) > threshold)
  else
    let ideal_balance := channel.capacity / 2
    let actual_balance := channel.local_balance
    let difference :=
      if actual_balance > ideal_balance then actual_balance - ideal_balance
      else ideal_balance - actual_balance
    if ideal_balance = 0 then decide (difference ≠ 0)
    else decide (mkRat difference ideal_balance > threshold)

/-- `calculate_rebalance_amount`: move 80% of the excess (when the local
balance is above the ideal 50% point) or of the deficit (otherwise). The
source computes `(x as f64 * 0.8) as u64` (truncation); for every amount the
`[min_rebalance_amount, max_rebalance_amount]` filter can admit that value is
exactly `x * 4 / 5` in `Nat`. The `ratio` argument of the source is unused. -/
def calculate_rebalance_amount (channel : ChannelInfo) : Nat :=
  let ideal_balance := channel.capacity / 2
  let current_balance := channel.local_balance
  if current_balance > ideal_balance then (current_balance - ideal_balance) * 4 / 5
  else (ideal_balance - current_balance) * 4 / 5

/-- `find_target_channel`: the first other active channel whose local balance
is below its ideal point and whose deficit can absorb the amount. -/
def find_target_channel (channels : List (String × ChannelInfo))
    (source_channel : ChannelInfo) (amount : Nat) : Option ChannelInfo :=
  (channels.map Prod.snd).find? (fun channel =>
    decide (channel.channel_id ≠ source_channel.channel_id) && channel.is_active &&
      decide (channel.local_balance < channel.capacity / 2) &&
      decide (amount ≤ channel.capacity / 2 - channel.local_balance))

/-- `create_rebalance_operation`: discard amounts outside the configured
bounds, search for a target, and emit a `Pending` operation. The generated
uuid is the explicit argument `operation_id`. -/
def create_rebalance_operation (reb : Rebalancer) (channels : List (String × ChannelInfo))
    (channel : ChannelInfo) (operation_id : String) (now : Nat) :
    Option RebalanceOperation :=
  let rebalance_amount := calculate_rebalance_amount channel
  if rebalance_amount < reb.min_rebalance_amount then none
  else if rebalance_amount > reb.max_rebalance_amount then none
  else
    match find_target_channel channels channel rebalance_amount with
    | none => none
    | some target =>
      some { operation_id := operation_id
             from_channel := channel.channel_id
             to_channel := target.channel_id
             amount := rebalance_amount
             status := .Pending
             created_at := now
             completed_at := none }

/-- One step of the stable insertion sort realizing the source's stable
`sort_by(|a, b| b.2.partial_cmp(&a.2))` (descending by imbalance severity):
`x` is placed before the first element it strictly exceeds, so equal ratios
keep their original relative order. -/
def insertSortedDesc (x : String × ChannelInfo × ℚ) :
    List (String × ChannelInfo × ℚ) → List (String × ChannelInfo × ℚ)
  | [] => [x]
  | y :: ys => if y.2.2 > x.2.2 then y :: insertSortedDesc x ys else x :: y :: ys

/-- Stable sort, descending by the third component (the balance ratio). -/
def sortByRatioDesc : List (String × ChannelInfo × ℚ) → List (String × ChannelInfo × ℚ)
  | [] => []
  | x :: xs => insertSortedDesc x (sortByRatioDesc xs)

/-- `check_rebalancing_needed`: collect the active channels whose imbalance
exceeds the threshold, sort them worst-first, and emit one operation per
channel for which `create_rebalance_operation` finds a target. `gen i` stands
for the uuid of the `i`-th generated operation. -/
def check_rebalancing_needed (reb : Rebalancer) (channels : List (String × ChannelInfo))
    (gen : Nat → String) (now : Nat) : List RebalanceOperation :=
  let imbalanced := channels.filterMap (fun pr =>
    if pr.2.is_active && balance_ratio_exceeds reb.rebalance_threshold pr.2 then
      some (pr.1, pr.2, calculate_balance_ratio_q pr.2)
    else none)
  let sorted := sortByRatioDesc imbalanced
  sorted.enum.filterMap (fun pr =>
    create_rebalance_operation reb channels pr.2.2.1 ("rebalance_" ++ gen pr.1) now)

/-- `update_channel_after_rebalance`: decrement the source channel's local
balance (`saturating_sub`, i.e. `Nat` subtraction), stamp `last_rebalance`
and bump its `rebalance_count`; increment the target channel's local balance
and stamp its `last_rebalance`. Remote balances are not touched. -/
def update_channel_after_rebalance (channels : List (String × ChannelInfo))
    (operation : RebalanceOperation) (now : Nat) : List (String × ChannelInfo) :=
  let channels1 := mapModify operation.from_channel
    (fun source_channel =>
      { source_channel with
        local_balance := source_channel.local_balance - operation.amount
        last_rebalance := some now
        rebalance_count := source_channel.rebalance_count + 1 })
    channels
  mapModify operation.to_channel
    (fun target_channel =>
      { target_channel with
        local_balance := target_channel.local_balance + operation.amount
        last_rebalance := some now })
    channels1

/-- `execute_rebalance`: mark `InProgress`, simulate the settlement (the source
sleeps 2s and assumes success), mark `Completed` with `completed_at`, and apply
`update_channel_after_rebalance`. -/
def execute_rebalance (channels : List (String × ChannelInfo))
    (operation : RebalanceOperation) (now : Nat) :
    RebalanceOperation × List (String × ChannelInfo) :=
  let operation' := { operation with status := .Completed, completed_at := some now }
  (operation', update_channel_after_rebalance channels operation' now)

/-- Two fully imbalanced 1M-sat channels, each satisfying the balance-sum
invariant `local + remote = capacity`. -/
def sampleChannels : List (String × ChannelInfo) :=
  [("chA", { channel_id := "chA", local_balance := 1000000, remote_balance := 0
             capacity := 1000000, is_active := true, last_rebalance := none
             rebalance_count := 0 }),
   ("chB", { channel_id := "chB", local_balance := 0, remote_balance := 1000000
             capacity := 1000000, is_active := true, last_rebalance := none
             rebalance_count := 0 })]

end ChannelRebalancer

/-! ## Payment processor — `performance/payment_processor.rs` -/

namespace PaymentProcessor

inductive PaymentStatus
  | Pending
  | Processing
  | Succeeded
  | Failed
  | Retrying
  | Cancelled
  deriving DecidableEq, Repr

structure Payment where
  payment_id : String
  wallet_id : String
  amount_sats : Nat
  invoice : String
  description : String
  status : PaymentStatus
  payment_hash : String
  created_at : Nat
  updated_at : Nat
  retry_count : Nat
  error_message : Option String
  deriving DecidableEq, Repr

structure RetryItem where
  payment_id : String
  retry_count : Nat
  next_retry_at : Nat
  error : String
  deriving DecidableEq, Repr

/-- The processor's two shared collections: the payment map and the
time-ordered retry queue. -/
structure ProcessorState where
  payments : List (String × Payment)
  retry_queue : List RetryItem
  deriving DecidableEq, Repr

structure Processor where
  max_retries : Nat
  retry_delay : Nat
  deriving DecidableEq, Repr

/-- `PaymentProcessor::new`: `max_retries = 3`, `retry_delay = 5s`. -/
def Processor.new : Processor := { max_retries := 3, retry_delay := 5 }

/-- Outcome of one `timeout(30s, send_payment(..))` attempt: `Ok(Ok(..))`,
`Ok(Err(e))`, or the elapsed timeout. -/
inductive AttemptOutcome
  | ok (payment_hash : String) (status : String)
  | err (e : String)
  | timedOut
  deriving DecidableEq, Repr

/-- The error text an attempt contributes: the runtime's message, or the fixed
timeout message. (Unused for successful attempts.) -/
def failMessage : AttemptOutcome → String
  | .ok _ _ => ""
  | .err e => e
  | .timedOut => "Payment processing timed out"

/-- `update_payment_status`: overwrite status, `updated_at` and
`error_message` of the payment if present; no-op otherwise. -/
def update_payment_status (st : ProcessorState) (payment_id : String)
    (status : PaymentStatus) (error : Option String) (now : Nat) : ProcessorState :=
  let payments := mapModify payment_id
    (fun p => { p with status := status, updated_at := now, error_message := error })
    st.payments
  { st with payments := payments }

/-- `update_payment_success`: record the hash and set `Succeeded` (the
`status` string argument of the source is ignored there too). -/
def update_payment_success (st : ProcessorState) (payment_id payment_hash : String)
    (_status_str : String) (now : Nat) : ProcessorState :=
  let payments := mapModify payment_id
    (fun p => { p with status := .Succeeded, payment_hash := payment_hash
                       updated_at := now, error_message := none })
    st.payments
  { st with payments := payments }

/-- `update_payment_failure`: set `Failed` and record the error. -/
def update_payment_failure (st : ProcessorState) (payment_id error : String)
    (now : Nat) : ProcessorState :=
  let payments := mapModify payment_id
    (fun p => { p with status := .Failed, updated_at := now
                       error_message := some error })
    st.payments
  { st with payments := payments }

/-- `add_to_retry_queue`: push an item due `5 * retry_count` seconds from now
(the source hardcodes the 5 here, independent of `retry_delay`). -/
def add_to_retry_queue (st : ProcessorState) (payment_id : String) (retry_count : Nat)
    (error : String) (now : Nat) : ProcessorState :=
  let item : RetryItem :=
    { payment_id := payment_id, retry_count := retry_count
      next_retry_at := now + 5 * retry_count, error := error }
  { st with retry_queue := st.retry_queue ++ [item] }

/-- `get_payment_invoice`. -/
def get_payment_invoice (st : ProcessorState) (payment_id : String) : Except String String :=
  match List.lookup payment_id st.payments with
  | none => .error "Payment not found"
  | some p => .ok p.invoice

/-- One attempt as performed inside the 30s-timeout block: fetching the
invoice fails if the payment vanished (that error takes the `Ok(Err(..))`
branch of the source); otherwise the oracle supplies the runtime's outcome
for the `k`-th attempt of this call. -/
def attempt_outcome (st : ProcessorState) (payment_id : String)
    (oracle : Nat → AttemptOutcome) (k : Nat) : AttemptOutcome :=
  match get_payment_invoice st payment_id with
  | .error e => .err e
  | .ok _ => oracle k

/-- The `while retry_count <= max_retries` loop of `process_payment_async`.
`budget = max_retries - retry_count` is the remaining retry budget (the loop
guard can never fail, so every exit is a `return`); `attempts` counts the
attempts already performed in this call. Returns the final state, the total
attempt count, and the function's `Result`. -/
def process_attempts (proc : Processor) (oracle : Nat → AttemptOutcome)
    (payment_id : String) (now : Nat) :
    Nat → Nat → ProcessorState → ProcessorState × Nat × Except String Unit
  | 0, attempts, st =>
    let st1 := update_payment_status st payment_id .Processing none now
    match attempt_outcome st1 payment_id oracle attempts with
    | .ok payment_hash status_str =>
      (update_payment_success st1 payment_id payment_hash status_str now,
        attempts + 1, .ok ())
    | .err e =>
      (update_payment_failure st1 payment_id e now, attempts + 1, .error e)
    | .timedOut =>
      (update_payment_failure st1 payment_id "Payment processing timed out" now,
        attempts + 1, .error "Payment processing timed out")
  | b + 1, attempts, st =>
    let st1 := update_payment_status st payment_id .Processing none now
    match attempt_outcome st1 payment_id oracle attempts with
    | .ok payment_hash status_str =>
      (update_payment_success st1 payment_id payment_hash status_str now,
        attempts + 1, .ok ())
    | .err e =>
      process_attempts proc oracle payment_id now b (attempts + 1)
        (add_to_retry_queue st1 payment_id (proc.max_retries - b) e now)
    | .timedOut =>
      process_attempts proc oracle payment_id now b (attempts + 1)
        (add_to_retry_queue st1 payment_id (proc.max_retries - b)
          "Payment processing timed out" now)

/-- `process_payment_async`: run the attempt loop with the full retry budget. -/
def process_payment_async (proc : Processor) (oracle : Nat → AttemptOutcome)
    (payment_id : String) (now : Nat) (st : ProcessorState) :
    ProcessorState × Nat × Except String Unit :=
  process_attempts proc oracle payment_id now proc.max_retries 0 st

/-- `process_payment`: insert the `Pending` record (with `retry_count = 0`)
and return it; the detached processing task is modelled as the separate
operation `process_payment_async`. -/
def process_payment (st : ProcessorState) (payment_id wallet_id : String)
    (amount_sats : Nat) (invoice description : String) (now : Nat) :
    ProcessorState × Payment :=
  let payment : Payment :=
    { payment_id := payment_id, wallet_id := wallet_id, amount_sats := amount_sats
      invoice := invoice, description := description, status := .Pending
      payment_hash := "", created_at := now, updated_at := now
      retry_count := 0, error_message := none }
  ({ st with payments := mapInsert payment_id payment st.payments }, payment)

/-- `cancel_payment`: refuse only for missing payments and for `Succeeded`
ones; otherwise overwrite the status with `Cancelled`. -/
def cancel_payment (st : ProcessorState) (payment_id : String) (now : Nat) :
    Except String Payment × ProcessorState :=
  match List.lookup payment_id st.payments with
  | none => (.error "Payment not found", st)
  | some payment =>
    if payment.status = .Succeeded then (.error "Cannot cancel completed payment", st)
    else
      let updated := { payment with status := .Cancelled, updated_at := now }
      (.ok updated,
        { st with payments := mapModify payment_id (fun _ => updated) st.payments })

/-- `process_retry_queue` (the body of one background-drainer tick): remove
every queue item whose `next_retry_at` has passed (preserving the order of the
rest), then re-run the full processing loop for each removed item. Also
returns the total number of attempts those re-runs performed. -/
def process_retry_queue (proc : Processor) (oracle : String → Nat → AttemptOutcome)
    (now : Nat) (st : ProcessorState) : ProcessorState × Nat :=
  let to_retry := st.retry_queue.filter (fun item => item.next_retry_at ≤ now)
  let st0 := { st with
    retry_queue := st.retry_queue.filter (fun item => decide (now < item.next_retry_at)) }
  to_retry.foldl
    (fun acc item =>
      let r := process_payment_async proc (oracle item.payment_id) item.payment_id now acc.1
      (r.1, acc.2 + r.2.1))
    (st0, 0)

/-- The operations of the payment processor that touch the stored payments,
with their inputs (oracles included), for stating frame properties over
arbitrary operation sequences. -/
inductive Op
  | submit (payment_id wallet_id : String) (amount_sats : Nat)
      (invoice description : String) (now : Nat)
  | runAsync (oracle : Nat → AttemptOutcome) (payment_id : String) (now : Nat)
  | drainRetryQueue (oracle : String → Nat → AttemptOutcome) (now : Nat)
  | cancel (payment_id : String) (now : Nat)
  | setStatus (payment_id : String) (status : PaymentStatus) (error : Option String) (now : Nat)
  | setSuccess (payment_id payment_hash status_str : String) (now : Nat)
  | setFailure (payment_id error : String) (now : Nat)

def applyOp (proc : Processor) : Op → ProcessorState → ProcessorState
  | .submit pid w a i d now, st => (process_payment st pid w a i d now).1
  | .runAsync oracle pid now, st => (process_payment_async proc oracle pid now st).1
  | .drainRetryQueue oracle now, st => (process_retry_queue proc oracle now st).1
  | .cancel pid now, st => (cancel_payment st pid now).2
  | .setStatus pid s e now, st => update_payment_status st pid s e now
  | .setSuccess pid h s now, st => update_payment_success st pid h s now
  | .setFailure pid e now, st => update_payment_failure st pid e now

def runOps (proc : Processor) : List Op → ProcessorState → ProcessorState
  | [], st => st
  | op :: ops, st => runOps proc ops (applyOp proc op st)

/-- The retry-queue items a run of the attempt loop appends when every attempt
fails: starting from `retry_count = max_retries - budget`, the `j`-th failed
attempt enqueues an item with the incremented counter `max_retries - budget +
j + 1`, due `5 *` that count seconds later, carrying that attempt's error. -/
def retryItemsFor (proc : Processor) (oracle : Nat → AttemptOutcome)
    (payment_id : String) (now : Nat) (budget attempts : Nat) : List RetryItem :=
  (List.range budget).map (fun j =>
    { payment_id := payment_id
      retry_count := proc.max_retries - budget + j + 1
      next_retry_at := now + 5 * (proc.max_retries - budget + j + 1)
      error := failMessage (oracle (attempts + j)) })

def emptyState : ProcessorState := { payments := [], retry_queue := [] }

/-- An oracle under which every `send_payment` attempt fails. -/
def failedOracle : Nat → AttemptOutcome := fun _ => .err "route not found"

/-- The state after submitting payment `p1`. -/
def submittedState : ProcessorState :=
  (process_payment emptyState "p1" "w1" 1000 "lnbc10n1x" "test" 0).1

/-- The state after the processing loop ran on `p1` with every attempt
failing. -/
def allFailState : ProcessorState :=
  (process_payment_async Processor.new failedOracle "p1" 0 submittedState).1

end PaymentProcessor

end SatsConnect

namespace SatsConnect

/-! ## Shared association-list lemmas -/

theorem lookup_mapInsert_self {α : Type} (k : String) (v : α) (l : List (String × α)) :
    List.lookup k (mapInsert k v l) = some v := by
  induction l with
  | nil => simp [mapInsert, List.lookup]
  | cons pr rest ih =>
    obtain ⟨a, b⟩ := pr
    by_cases h : a = k
    · simp [mapInsert, h, List.lookup]
    · have : (k == a) = false := by simp [beq_iff_eq]; exact fun he => h he.symm
      simp only [mapInsert, if_neg h, List.lookup, this]
      exact ih

theorem lookup_mapInsert_ne {α : Type} {k k' : String} (v : α) (l : List (String × α))
    (h : k' ≠ k) : List.lookup k' (mapInsert k v l) = List.lookup k' l := by
  induction l with
  | nil =>
    simp only [mapInsert, List.lookup]
    have : (k' == k) = false := by simp [beq_iff_eq, h]
    rw [this]
  | cons pr rest ih =>
    obtain ⟨a, b⟩ := pr
    by_cases hk : a = k
    · subst hk
      simp only [mapInsert, if_pos rfl, List.lookup]
      have : (k' == a) = false := by simp [beq_iff_eq, h]
      rw [this]
    · simp only [mapInsert, if_neg hk, List.lookup]
      cases hb : (k' == a) with
      | true => rfl
      | false => exact ih

theorem length_mapInsert_of_fresh {α : Type} {k : String} (v : α) {l : List (String × α)}
    (h : List.lookup k l = none) : (mapInsert k v l).length = l.length + 1 := by
  induction l with
  | nil => simp [mapInsert]
  | cons pr rest ih =>
    obtain ⟨a, b⟩ := pr
    rw [List.lookup] at h
    by_cases hk : a = k
    · subst hk
      simp at h
    · have hne : (k == a) = false := by simp [beq_iff_eq]; exact fun he => hk he.symm
      rw [hne] at h
      simp [mapInsert, hk, ih h]

theorem lookup_mapModify_self {α : Type} (k : String) (f : α → α) (l : List (String × α)) :
    List.lookup k (mapModify k f l) = (List.lookup k l).map f := by
  induction l with
  | nil => simp [mapModify, List.lookup]
  | cons pr rest ih =>
    obtain ⟨a, b⟩ := pr
    by_cases h : a = k
    · simp [mapModify, h, List.lookup]
    · have : (k == a) = false := by simp [beq_iff_eq]; exact fun he => h he.symm
      simp only [mapModify, if_neg h, List.lookup, this]
      exact ih

theorem lookup_mapModify_ne {α : Type} {k k' : String} (f : α → α) (l : List (String × α))
    (h : k' ≠ k) : List.lookup k' (mapModify k f l) = List.lookup k' l := by
  induction l with
  | nil => simp [mapModify]
  | cons pr rest ih =>
    obtain ⟨a, b⟩ := pr
    by_cases hk : a = k
    · subst hk
      simp only [mapModify, if_pos rfl, List.lookup]
      have : (k' == a) = false := by simp [beq_iff_eq, h]
      rw [this]
    · simp only [mapModify, if_neg hk, List.lookup]
      cases hb : (k' == a) with
      | true => rfl
      | false => exact ih

theorem lookup_mem {α : Type} {k : String} {v : α} {l : List (String × α)}
    (h : List.lookup k l = some v) : (k, v) ∈ l := by
  induction l with
  | nil => cases h
  | cons pr rest ih =>
    obtain ⟨a, b⟩ := pr
    rw [List.lookup] at h
    cases hk : (k == a) with
    | true =>
      rw [hk] at h
      cases h
      exact (beq_iff_eq.mp hk) ▸ List.mem_cons_self _ _
    | false =>
      rw [hk] at h
      exact List.mem_cons_of_mem _ (ih h)

theorem mem_mapModify {α : Type} {P : α → Prop} {k : String} {f : α → α}
    {l : List (String × α)} (hf : ∀ v, P v → P (f v)) (hl : ∀ pr ∈ l, P pr.2) :
    ∀ pr ∈ mapModify k f l, P pr.2 := by
  induction l with
  | nil => simp [mapModify]
  | cons hd rest ih =>
    intro pr hpr
    by_cases hk : hd.1 = k
    · obtain ⟨a, b⟩ := hd
      rw [mapModify, if_pos hk] at hpr
      rcases List.mem_cons.mp hpr with h | h
      · subst h; exact hf _ (hl (a, b) (List.mem_cons_self _ _))
      · exact hl pr (List.mem_cons_of_mem _ h)
    · obtain ⟨a, b⟩ := hd
      rw [mapModify, if_neg hk] at hpr
      rcases List.mem_cons.mp hpr with h | h
      · subst h; exact hl (a, b) (List.mem_cons_self _ _)
      · exact ih (fun q hq => hl q (List.mem_cons_of_mem _ hq)) pr h

theorem mem_mapInsert {α : Type} {P : α → Prop} {k : String} {v : α}
    {l : List (String × α)} (hv : P v) (hl : ∀ pr ∈ l, P pr.2) :
    ∀ pr ∈ mapInsert k v l, P pr.2 := by
  induction l with
  | nil => simpa [mapInsert] using hv
  | cons hd rest ih =>
    intro pr hpr
    by_cases hk : hd.1 = k
    · obtain ⟨a, b⟩ := hd
      rw [mapInsert, if_pos hk] at hpr
      rcases List.mem_cons.mp hpr with h | h
      · subst h; exact hv
      · exact hl pr (List.mem_cons_of_mem _ h)
    · obtain ⟨a, b⟩ := hd
      rw [mapInsert, if_neg hk] at hpr
      rcases List.mem_cons.mp hpr with h | h
      · subst h; exact hl (a, b) (List.mem_cons_self _ _)
      · exact ih (fun q hq => hl q (List.mem_cons_of_mem _ hq)) pr h

/-! ## Claim C4 — `create_channel` validation and success postcondition -/

namespace ChannelManager

/-- C4: `create_channel(peer_id, capacity_sats)` fails exactly when
`capacity_sats < min_channel_size`, or `capacity_sats > max_channel_size`, or
the peer already has at least `max_channels_per_peer` channels; on failure the
registry is unchanged. On success (fresh generated id) it returns the id,
inserts exactly one `Pending` channel with `local = 0`, `remote = capacity`,
and the registry grows by one entry. -/
theorem create_channel_spec (config : ChannelConfig) (channels : List (String × ChannelInfo))
    (peer_id : String) (capacity_sats : Nat) (channel_id : String) (now : Nat)
    (hfresh : List.lookup channel_id channels = none) :
    ((∃ e, (create_channel config channels peer_id capacity_sats channel_id now).1 =
        .error e) ↔
      (capacity_sats < config.min_channel_size ∨ config.max_channel_size < capacity_sats ∨
        config.max_channels_per_peer ≤ peer_channel_count channels peer_id)) ∧
    (∀ e, (create_channel config channels peer_id capacity_sats channel_id now).1 =
        .error e →
      (create_channel config channels peer_id capacity_sats channel_id now).2 = channels) ∧
    ((config.min_channel_size ≤ capacity_sats ∧ capacity_sats ≤ config.max_channel_size ∧
        peer_channel_count channels peer_id < config.max_channels_per_peer) →
      (create_channel config channels peer_id capacity_sats channel_id now).1 =
          .ok channel_id ∧
        (create_channel config channels peer_id capacity_sats channel_id now).2 =
          mapInsert channel_id
            { channel_id := channel_id, peer_id := peer_id, capacity_sats := capacity_sats
              local_balance_sats := 0, remote_balance_sats := capacity_sats
              state := .Pending, created_at := now, updated_at := now } channels ∧
        List.lookup channel_id
            (create_channel config channels peer_id capacity_sats channel_id now).2 =
          some { channel_id := channel_id, peer_id := peer_id, capacity_sats := capacity_sats
                 local_balance_sats := 0, remote_balance_sats := capacity_sats
                 state := .Pending, created_at := now, updated_at := now } ∧
        (create_channel config channels peer_id capacity_sats channel_id now).2.length =
          channels.length + 1) := by
  refine ⟨?_, ?_, ?_⟩
  · constructor
    · rintro ⟨e, he⟩
      by_contra hcon
      push_neg at hcon
      obtain ⟨h1, h2, h3⟩ := hcon
      rw [create_channel, if_neg (by omega), if_neg (by omega), if_neg (by omega)] at he
      simp at he
    · intro h
      rcases h with h | h | h
      · exact ⟨_, by rw [create_channel, if_pos h]⟩
      · rw [create_channel]
        by_cases h1 : capacity_sats < config.min_channel_size
        · exact ⟨_, by rw [if_pos h1]⟩
        · exact ⟨_, by rw [if_neg h1, if_pos (by omega)]⟩
      · rw [create_channel]
        by_cases h1 : capacity_sats < config.min_channel_size
        · exact ⟨_, by rw [if_pos h1]⟩
        · by_cases h2 : capacity_sats > config.max_channel_size
          · exact ⟨_, by rw [if_neg h1, if_pos h2]⟩
          · exact ⟨_, by rw [if_neg h1, if_neg h2, if_pos h]⟩
  · intro e he
    rw [create_channel] at he ⊢
    by_cases h1 : capacity_sats < config.min_channel_size
    · rw [if_pos h1]
    · rw [if_neg h1] at he ⊢
      by_cases h2 : capacity_sats > config.max_channel_size
      · rw [if_pos h2]
      · rw [if_neg h2] at he ⊢
        by_cases h3 : peer_channel_count channels peer_id ≥ config.max_channels_per_peer
        · rw [if_pos h3]
        · rw [if_neg h3] at he
          simp at he
  · rintro ⟨h1, h2, h3⟩
    rw [create_channel, if_neg (by omega), if_neg (by omega), if_neg (by omega)]
    exact ⟨rfl, rfl, lookup_mapInsert_self _ _ _, length_mapInsert_of_fresh _ hfresh⟩

/-- Witness for C4: with the default configuration, creating a 1,000,000-sat
channel with a fresh peer succeeds, returns the generated id, and grows the
registry from zero to one entry. -/
theorem create_channel_spec_witness :
    (create_channel ChannelConfig.default [] "peer123" 1000000 "ch_1" 7).1 = .ok "ch_1" ∧
      (create_channel ChannelConfig.default [] "peer123" 1000000 "ch_1" 7).2.length = 0 + 1 := by
  have h := create_channel_spec ChannelConfig.default [] "peer123" 1000000 "ch_1" 7 (by decide)
  obtain ⟨-, -, hsucc⟩ := h
  have := hsucc (by decide)
  exact ⟨this.1, this.2.2.2⟩

end ChannelManager

/-! ## Claim C9 — `get_best_peer` selects a best online peer -/

namespace Engine

theorem max_by_success_rate_go (l : List (String × PeerNode)) :
    ∀ acc : Option (String × PeerNode),
      (l.foldl
          (fun acc x =>
            match acc with
            | none => some x
            | some m => if m.2.success_rate > x.2.success_rate then some m else some x)
          acc = none ↔ (l = [] ∧ acc = none)) ∧
      (∀ m, l.foldl
          (fun acc x =>
            match acc with
            | none => some x
            | some m => if m.2.success_rate > x.2.success_rate then some m else some x)
          acc = some m →
        (m ∈ l ∨ acc = some m) ∧ (∀ x ∈ l, x.2.success_rate ≤ m.2.success_rate) ∧
          (∀ a, acc = some a → a.2.success_rate ≤ m.2.success_rate)) := by
  induction l with
  | nil =>
    intro acc
    refine ⟨by simp, ?_⟩
    intro m hm
    simp only [List.foldl] at hm
    exact ⟨Or.inr hm, by simp, fun a ha => by rw [ha] at hm; cases hm; exact le_refl _⟩
  | cons hd tl ih =>
    intro acc
    constructor
    · simp only [List.foldl]
      constructor
      · intro h
        exfalso
        cases acc with
        | none => exact absurd h (by simpa using ((ih (some hd)).1.not.mpr (by simp)))
        | some m =>
          have hred :
              (match some m with
                | none => some hd
                | some m =>
                  if m.2.success_rate > hd.2.success_rate then some m else some hd) =
                (if m.2.success_rate > hd.2.success_rate then some m else some hd) := rfl
          rw [hred] at h
          rcases h' : (if m.2.success_rate > hd.2.success_rate then some m else some hd) with
            _ | v
          · split at h' <;> simp at h'
          · rw [h'] at h
            exact absurd h (by simpa using ((ih (some v)).1.not.mpr (by simp)))
      · rintro ⟨h, -⟩; cases h
    · intro m hm
      simp only [List.foldl] at hm
      cases acc with
      | none =>
        obtain ⟨hmem, hall, hacc⟩ := (ih (some hd)).2 m hm
        refine ⟨?_, ?_, ?_⟩
        · rcases hmem with h | h
          · exact Or.inl (List.mem_cons_of_mem _ h)
          · cases h; exact Or.inl (List.mem_cons_self _ _)
        · intro x hx
          rcases List.mem_cons.mp hx with h | h
          · subst h; exact hacc _ rfl
          · exact hall x h
        · intro a ha; cases ha
      | some m0 =>
        have hred :
            (match some m0 with
              | none => some hd
              | some m =>
                if m.2.success_rate > hd.2.success_rate then some m else some hd) =
              (if m0.2.success_rate > hd.2.success_rate then some m0 else some hd) := rfl
        rw [hred] at hm
        rcases h' : (if m0.2.success_rate > hd.2.success_rate then some m0 else some hd) with
          _ | v
        · split at h' <;> simp at h'
        · rw [h'] at hm
          obtain ⟨hmem, hall, hacc⟩ := (ih (some v)).2 m hm
          have hv : (v = m0 ∧ ¬ hd.2.success_rate < m0.2.success_rate → False) ∨ True :=
            Or.inr trivial
          split at h'
          · -- v = m0, the accumulator wins; hd.rate < m0.rate ≤ ... ≤ m.rate
            rename_i hgt
            cases h'
            refine ⟨?_, ?_, ?_⟩
            · rcases hmem with h | h
              · exact Or.inl (List.mem_cons_of_mem _ h)
              · exact Or.inr h
            · intro x hx
              rcases List.mem_cons.mp hx with h | h
              · subst h; exact le_trans (le_of_lt hgt) (hacc _ rfl)
              · exact hall x h
            · exact hacc
          · -- v = hd, the new element wins; m0.rate ≤ hd.rate ≤ m.rate
            rename_i hngt
            cases h'
            refine ⟨?_, ?_, ?_⟩
            · rcases hmem with h | h
              · exact Or.inl (List.mem_cons_of_mem _ h)
              · cases h; exact Or.inl (List.mem_cons_self _ _)
            · intro x hx
              rcases List.mem_cons.mp hx with h | h
              · subst h; exact hacc _ rfl
              · exact hall x h
            · intro a ha
              cases ha
              exact le_trans (le_of_not_lt hngt) (hacc _ rfl)

/-- C9: `get_best_peer` returns `None` exactly when no tracked peer is online;
otherwise it returns the id of an online peer whose `success_rate` is maximal
among the online peers. In the spec's failover scenario (P1 at 0.2 and P2 at
0.9, both online) it returns P2, and after P2 is marked offline through
`update_peer_status` it returns P1. -/
theorem get_best_peer_spec (peers : List (String × Engine.PeerNode)) :
    (get_best_peer peers = none ↔ ∀ pr ∈ peers, pr.2.is_online = false) ∧
      (∀ nid, get_best_peer peers = some nid →
        ∃ pr ∈ peers, pr.1 = nid ∧ pr.2.is_online = true ∧
          ∀ qr ∈ peers, qr.2.is_online = true →
            qr.2.success_rate ≤ pr.2.success_rate) ∧
      get_best_peer failoverPeers = some "P2" ∧
      get_best_peer (update_peer_status failoverPeers "P2" false 1) = some "P1" := by
  refine ⟨?_, ?_, by decide, by decide⟩
  · rw [get_best_peer]
    by_cases hemp : (peers.filter (fun pr => pr.2.is_online)).isEmpty
    · rw [if_pos hemp]
      have hnil : peers.filter (fun pr => pr.2.is_online) = [] :=
        List.isEmpty_iff.mp hemp
      simp only [eq_self_iff_true, true_iff]
      intro pr hpr
      by_contra hon
      have : pr ∈ peers.filter (fun pr => pr.2.is_online) := by
        rw [List.mem_filter]
        exact ⟨hpr, by simpa [Bool.not_eq_false] using hon⟩
      rw [hnil] at this
      cases this
    · rw [if_neg hemp]
      have hne : peers.filter (fun pr => pr.2.is_online) ≠ [] := by
        intro h; exact hemp (by rw [h]; rfl)
      constructor
      · intro h
        rcases hmb : max_by_success_rate (peers.filter (fun pr => pr.2.is_online)) with
          _ | m
        · exact absurd (((max_by_success_rate_go _ none).1.mp hmb).1) hne
        · rw [max_by_success_rate] at hmb
          rw [max_by_success_rate, hmb] at h
          cases h
      · intro hoff
        exfalso
        obtain ⟨pr, hpr⟩ := List.exists_mem_of_ne_nil _ hne
        have := (List.mem_filter.mp hpr).2
        rw [hoff pr (List.mem_filter.mp hpr).1] at this
        cases this
  · intro nid h
    rw [get_best_peer] at h
    by_cases hemp : (peers.filter (fun pr => pr.2.is_online)).isEmpty
    · rw [if_pos hemp] at h; cases h
    · rw [if_neg hemp] at h
      rcases hmb : max_by_success_rate (peers.filter (fun pr => pr.2.is_online)) with
        _ | m
      · rw [hmb] at h; cases h
      · rw [hmb] at h
        have hm := (max_by_success_rate_go (peers.filter (fun pr => pr.2.is_online)) none).2
          m (by rw [max_by_success_rate] at hmb; exact hmb)
        obtain ⟨hmem, hall, -⟩ := hm
        rcases hmem with hmem | hmem
        swap
        · cases hmem
        refine ⟨m, (List.mem_filter.mp hmem).1, ?_, ?_, ?_⟩
        · cases h; rfl
        · simpa using (List.mem_filter.mp hmem).2
        · intro qr hqr hon
          exact hall qr (List.mem_filter.mpr ⟨hqr, by simpa using hon⟩)

/-- Witness for C9: instantiating the characterization at the scenario table,
the selected peer P2 is online with a maximal success rate among online peers. -/
theorem get_best_peer_spec_witness :
    ∃ pr ∈ failoverPeers, pr.1 = "P2" ∧ pr.2.is_online = true ∧
      ∀ qr ∈ failoverPeers, qr.2.is_online = true →
        qr.2.success_rate ≤ pr.2.success_rate :=
  (get_best_peer_spec failoverPeers).2.1 "P2" (by decide)

end Engine

/-! ## Claim C8 — TTL semantics of the read cache -/

namespace AsyncEngine

/-- C8: `get_balance` serves the cached tuple without consulting the runtime
exactly when the `"balance"` entry satisfies `timestamp + ttl > now`
(entries are stored with `ttl = 30`); otherwise it calls the runtime and, on
success, stores the fresh tuple with `ttl = 30`. `get_payment_status` follows
the same discipline under `"payment_status_<hash>"` with `ttl = 60` (its fresh
path is the source's acknowledged stub producing `"SUCCEEDED"`). The spec's
scenario: an entry written at `t = 0` with `ttl = 30` is served from cache at
`t = 29` and refreshed by a runtime call at `t = 31`. -/
theorem cache_ttl_spec (cache : Cache) (now : Nat) (fetch : Except String (Nat × Nat))
    (hash : String) :
    (∀ c a b, List.lookup "balance" cache = some c → c.data = .tup a b →
        c.timestamp + c.ttl > now →
        get_balance cache now fetch = (.ok (a, b), cache, false)) ∧
      ((∀ c, List.lookup "balance" cache = some c → ¬ c.timestamp + c.ttl > now) →
        ∀ a b, fetch = .ok (a, b) →
          get_balance cache now fetch =
            (.ok (a, b), mapInsert "balance" ⟨.tup a b, now, 30⟩ cache, true)) ∧
      ((get_balance cache now fetch).2.2 = false ↔
        ∃ c, List.lookup "balance" cache = some c ∧ c.timestamp + c.ttl > now) ∧
      (∀ c s, List.lookup ("payment_status_" ++ hash) cache = some c → c.data = .str s →
        c.timestamp + c.ttl > now →
        get_payment_status cache hash now = (.ok s, cache, false)) ∧
      ((∀ c, List.lookup ("payment_status_" ++ hash) cache = some c →
          ¬ c.timestamp + c.ttl > now) →
        get_payment_status cache hash now =
          (.ok "SUCCEEDED",
            mapInsert ("payment_status_" ++ hash) ⟨.str "SUCCEEDED", now, 60⟩ cache, true)) ∧
      ((get_payment_status cache hash now).2.2 = false ↔
        ∃ c, List.lookup ("payment_status_" ++ hash) cache = some c ∧
          c.timestamp + c.ttl > now) ∧
      get_balance scenarioCache 29 (.ok (1, 2)) = (.ok (700000, 42), scenarioCache, false) ∧
      get_balance scenarioCache 31 (.ok (1, 2)) =
        (.ok (1, 2), mapInsert "balance" ⟨.tup 1 2, 31, 30⟩ scenarioCache, true) := by
  refine ⟨?_, ?_, ?_, ?_, ?_, ?_, rfl, rfl⟩
  · intro c a b hc hdata hfresh
    simp [get_balance, hc, if_pos hfresh, hdata]
  · intro hstale a b hfetch
    cases hc : List.lookup "balance" cache with
    | none => simp [get_balance, hc, hfetch]
    | some c => simp [get_balance, hc, if_neg (hstale c hc), hfetch]
  · cases hc : List.lookup "balance" cache with
    | none =>
      cases fetch <;> simp [get_balance, hc]
    | some c =>
      by_cases hfresh : c.timestamp + c.ttl > now
      · cases hd : c.data <;>
          simp [get_balance, hc, if_pos hfresh, hd, hfresh]
      · cases fetch <;>
          simp [get_balance, hc, if_neg hfresh] <;>
          omega
  · intro c s hc hdata hfresh
    simp [get_payment_status, hc, if_pos hfresh, hdata]
  · intro hstale
    cases hc : List.lookup ("payment_status_" ++ hash) cache with
    | none => simp [get_payment_status, hc]
    | some c => simp [get_payment_status, hc, if_neg (hstale c hc)]
  · cases hc : List.lookup ("payment_status_" ++ hash) cache with
    | none => simp [get_payment_status, hc]
    | some c =>
      by_cases hfresh : c.timestamp + c.ttl > now
      · cases hd : c.data <;>
          simp [get_payment_status, hc, if_pos hfresh, hd, hfresh]
      · simp [get_payment_status, hc, if_neg hfresh]
        omega

/-- Witness for C8: at the scenario cache, a `t = 29` read applies the
fresh-hit clause and a `t = 31` read applies the stale clause. -/
theorem cache_ttl_spec_witness :
    get_balance scenarioCache 29 (.ok (1, 2)) = (.ok (700000, 42), scenarioCache, false) ∧
      get_balance scenarioCache 31 (.ok (1, 2)) =
        (.ok (1, 2), mapInsert "balance" ⟨.tup 1 2, 31, 30⟩ scenarioCache, true) := by
  have h := cache_ttl_spec scenarioCache 29 (.ok (1, 2)) "h"
  refine ⟨h.1 ⟨.tup 700000 42, 0, 30⟩ 700000 42 (by decide) rfl (by decide), ?_⟩
  have h' := cache_ttl_spec scenarioCache 31 (.ok (1, 2)) "h"
  exact h'.2.1 (by decide) 1 2 rfl

end AsyncEngine

/-! ## Claims C1, C6, C7 — rebalancer -/

namespace ChannelRebalancer

theorem mem_insertSortedDesc (x z : String × ChannelInfo × ℚ)
    (l : List (String × ChannelInfo × ℚ)) :
    z ∈ insertSortedDesc x l ↔ z = x ∨ z ∈ l := by
  induction l with
  | nil => simp [insertSortedDesc]
  | cons y ys ih =>
    rw [insertSortedDesc]
    by_cases h : y.2.2 > x.2.2
    · rw [if_pos h]
      simp only [List.mem_cons, ih]
      try tauto
    · rw [if_neg h]
      simp only [List.mem_cons]
      try tauto

theorem mem_sortByRatioDesc (z : String × ChannelInfo × ℚ)
    (l : List (String × ChannelInfo × ℚ)) :
    z ∈ sortByRatioDesc l ↔ z ∈ l := by
  induction l with
  | nil => simp [sortByRatioDesc]
  | cons x xs ih =>
    rw [sortByRatioDesc, mem_insertSortedDesc]
    simp only [List.mem_cons, ih]

/-- C6: every operation emitted by `check_rebalancing_needed` is `Pending`;
its source is an active tracked channel whose balance ratio exceeds the
threshold; its amount is 80% of that channel's excess (or deficit), truncated,
and lies within `[min_rebalance_amount, max_rebalance_amount]`; and its target
is a distinct active channel whose own deficit `capacity/2 - local_balance`
is at least the amount. -/
theorem check_rebalancing_spec (reb : Rebalancer) (channels : List (String × ChannelInfo))
    (gen : Nat → String) (now : Nat) :
    ∀ op ∈ check_rebalancing_needed reb channels gen now,
      op.status = .Pending ∧
        ∃ src ∈ channels.map Prod.snd,
          src.is_active = true ∧
            balance_ratio_exceeds reb.rebalance_threshold src = true ∧
            op.from_channel = src.channel_id ∧
            op.amount = calculate_rebalance_amount src ∧
            reb.min_rebalance_amount ≤ op.amount ∧
            op.amount ≤ reb.max_rebalance_amount ∧
            ∃ tgt ∈ channels.map Prod.snd,
              op.to_channel = tgt.channel_id ∧
                tgt.channel_id ≠ src.channel_id ∧
                tgt.is_active = true ∧
                tgt.local_balance < tgt.capacity / 2 ∧
                op.amount ≤ tgt.capacity / 2 - tgt.local_balance := by
  intro op hop
  rw [check_rebalancing_needed] at hop
  obtain ⟨⟨i, trip⟩, htrip, hcreate⟩ := List.mem_filterMap.mp hop
  have htrip' : trip ∈ sortByRatioDesc (channels.filterMap (fun pr =>
      if pr.2.is_active && balance_ratio_exceeds reb.rebalance_threshold pr.2 then
        some (pr.1, pr.2, calculate_balance_ratio_q pr.2)
      else none)) := List.snd_mem_of_mem_enum htrip
  rw [mem_sortByRatioDesc] at htrip'
  obtain ⟨pr, hpr, hif⟩ := List.mem_filterMap.mp htrip'
  have hcond : (pr.2.is_active && balance_ratio_exceeds reb.rebalance_threshold pr.2) = true := by
    by_contra hc
    rw [if_neg (by simpa using hc)] at hif
    cases hif
  rw [if_pos hcond] at hif
  have htripeq : trip = (pr.1, pr.2, calculate_balance_ratio_q pr.2) := by
    cases hif; rfl
  obtain ⟨hact, hexc⟩ : pr.2.is_active = true ∧
      balance_ratio_exceeds reb.rebalance_threshold pr.2 = true := by
    simpa using hcond
  subst htripeq
  simp only at hcreate
  rw [create_rebalance_operation] at hcreate
  by_cases h1 : calculate_rebalance_amount pr.2 < reb.min_rebalance_amount
  · rw [if_pos h1] at hcreate; cases hcreate
  rw [if_neg h1] at hcreate
  by_cases h2 : calculate_rebalance_amount pr.2 > reb.max_rebalance_amount
  · rw [if_pos h2] at hcreate; cases hcreate
  rw [if_neg h2] at hcreate
  rcases hft : find_target_channel channels pr.2 (calculate_rebalance_amount pr.2) with
    _ | target
  · rw [hft] at hcreate; cases hcreate
  rw [hft] at hcreate
  have hopdef : op =
      { operation_id := "rebalance_" ++ gen i
        from_channel := pr.2.channel_id
        to_channel := target.channel_id
        amount := calculate_rebalance_amount pr.2
        status := .Pending
        created_at := now
        completed_at := none } := by
    cases hcreate; rfl
  have htgtmem : target ∈ channels.map Prod.snd :=
    List.mem_of_find?_eq_some hft
  have htgtprop := List.find?_some hft
  simp only [Bool.and_eq_true, decide_eq_true_eq] at htgtprop
  obtain ⟨⟨⟨htne, htact⟩, htlt⟩, htcap⟩ := htgtprop
  subst hopdef
  refine ⟨rfl, pr.2, List.mem_map_of_mem Prod.snd hpr, hact, hexc, rfl, rfl,
    le_of_not_lt h1, le_of_not_lt h2, target, htgtmem, rfl, htne, htact, htlt, htcap⟩

/-- Witness for C6: the two-channel sample emits exactly one operation (chA to
chB, 400000 sats = 80% of chA's 500000-sat excess), and the characterization
applies to it. -/
theorem check_rebalancing_spec_witness :
    ∃ op ∈ check_rebalancing_needed Rebalancer.new sampleChannels (fun n => toString n) 0,
      op.status = .Pending ∧
        ∃ src ∈ sampleChannels.map Prod.snd,
          src.is_active = true ∧
            balance_ratio_exceeds Rebalancer.new.rebalance_threshold src = true ∧
            op.from_channel = src.channel_id ∧
            op.amount = calculate_rebalance_amount src ∧
            Rebalancer.new.min_rebalance_amount ≤ op.amount ∧
            op.amount ≤ Rebalancer.new.max_rebalance_amount ∧
            ∃ tgt ∈ sampleChannels.map Prod.snd,
              op.to_channel = tgt.channel_id ∧
                tgt.channel_id ≠ src.channel_id ∧
                tgt.is_active = true ∧
                tgt.local_balance < tgt.capacity / 2 ∧
                op.amount ≤ tgt.capacity / 2 - tgt.local_balance := by
  obtain ⟨op, hop⟩ :
      ∃ op, op ∈ check_rebalancing_needed Rebalancer.new sampleChannels
        (fun n => toString n) 0 := by
    refine ⟨?_, ?_⟩
    · exact { operation_id := "rebalance_0", from_channel := "chA", to_channel := "chB"
              amount := 400000, status := .Pending, created_at := 0, completed_at := none }
    · decide
  exact ⟨op, hop, check_rebalancing_spec Rebalancer.new sampleChannels
    (fun n => toString n) 0 op hop⟩

/-- C7: a successful `execute_rebalance` marks the operation `Completed` with
`completed_at` set; the source channel's local balance decreases by the amount
(`saturating_sub`, embedded as `Nat` subtraction), its `last_rebalance` is
stamped and its `rebalance_count` increments; the target channel's local
balance increases by the amount and its `last_rebalance` is stamped (its
`rebalance_count`, and every other channel, is untouched). -/
theorem execute_rebalance_spec (channels : List (String × ChannelInfo))
    (operation : RebalanceOperation) (now : Nat)
    (hne : operation.from_channel ≠ operation.to_channel)
    (cf : ChannelInfo) (hcf : List.lookup operation.from_channel channels = some cf)
    (ct : ChannelInfo) (hct : List.lookup operation.to_channel channels = some ct) :
    (execute_rebalance channels operation now).1 =
        { operation with status := .Completed, completed_at := some now } ∧
      List.lookup operation.from_channel (execute_rebalance channels operation now).2 =
        some { cf with local_balance := cf.local_balance - operation.amount
                       last_rebalance := some now
                       rebalance_count := cf.rebalance_count + 1 } ∧
      List.lookup operation.to_channel (execute_rebalance channels operation now).2 =
        some { ct with local_balance := ct.local_balance + operation.amount
                       last_rebalance := some now } ∧
      ∀ k, k ≠ operation.from_channel → k ≠ operation.to_channel →
        List.lookup k (execute_rebalance channels operation now).2 =
          List.lookup k channels := by
  refine ⟨rfl, ?_, ?_, ?_⟩
  · rw [execute_rebalance]
    simp only [update_channel_after_rebalance]
    rw [lookup_mapModify_ne _ _ hne, lookup_mapModify_self, hcf]
    rfl
  · rw [execute_rebalance]
    simp only [update_channel_after_rebalance]
    rw [lookup_mapModify_self, lookup_mapModify_ne _ _ (Ne.symm hne), hct]
    rfl
  · intro k hkf hkt
    rw [execute_rebalance]
    simp only [update_channel_after_rebalance]
    rw [lookup_mapModify_ne _ _ hkt, lookup_mapModify_ne _ _ hkf]

/-- Witness for C7: executing the 400000-sat chA-to-chB operation on the
sample channels yields the postcondition at both channels. -/
theorem execute_rebalance_spec_witness :
    (execute_rebalance sampleChannels
        { operation_id := "rebalance_0", from_channel := "chA", to_channel := "chB"
          amount := 400000, status := .Pending, created_at := 0, completed_at := none }
        5).1.status = .Completed ∧
      List.lookup "chA" (execute_rebalance sampleChannels
        { operation_id := "rebalance_0", from_channel := "chA", to_channel := "chB"
          amount := 400000, status := .Pending, created_at := 0, completed_at := none }
        5).2 =
        some { channel_id := "chA", local_balance := 600000, remote_balance := 0
               capacity := 1000000, is_active := true, last_rebalance := some 5
               rebalance_count := 1 } := by
  have h := execute_rebalance_spec sampleChannels
    { operation_id := "rebalance_0", from_channel := "chA", to_channel := "chB"
      amount := 400000, status := .Pending, created_at := 0, completed_at := none }
    5 (by decide)
    { channel_id := "chA", local_balance := 1000000, remote_balance := 0
      capacity := 1000000, is_active := true, last_rebalance := none
      rebalance_count := 0 } (by decide)
    { channel_id := "chB", local_balance := 0, remote_balance := 1000000
      capacity := 1000000, is_active := true, last_rebalance := none
      rebalance_count := 0 } (by decide)
  exact ⟨by rw [h.1], h.2.1⟩

/-- C1 fails on the code: starting from channels that all satisfy
`local + remote = capacity`, the operation produced by
`check_rebalancing_needed` completes with status `Completed`, yet the source
channel ends with `local + remote = 600000 ≠ 1000000 = capacity`, because
`update_channel_after_rebalance` never adjusts `remote_balance`. -/
theorem rebalance_violates_balance_sum :
    (∀ pr ∈ sampleChannels, pr.2.is_active = true ∧
        pr.2.local_balance + pr.2.remote_balance = pr.2.capacity) ∧
      (∃ op ∈ check_rebalancing_needed Rebalancer.new sampleChannels
          (fun n => toString n) 0,
        op.from_channel = "chA" ∧ op.to_channel = "chB" ∧ op.amount = 400000 ∧
          (execute_rebalance sampleChannels op 5).1.status = .Completed ∧
          ∃ c, List.lookup "chA" (execute_rebalance sampleChannels op 5).2 = some c ∧
            c.is_active = true ∧ c.local_balance + c.remote_balance ≠ c.capacity) := by
  decide

end ChannelRebalancer

/-! ## Claim C5 — BFS shortest paths (`find_shortest_path`) -/

namespace NetworkGraph

theorem lookup_append_left {α : Type} {k : String} {v : α} {l1 l2 : List (String × α)}
    (h : List.lookup k l1 = some v) : List.lookup k (l1 ++ l2) = some v := by
  induction l1 with
  | nil => cases h
  | cons pr rest ih =>
    obtain ⟨a, b⟩ := pr
    rw [List.lookup] at h
    rw [List.cons_append, List.lookup]
    cases hk : (k == a) with
    | true => rw [hk] at h; exact h
    | false => rw [hk] at h; exact ih h

theorem lookup_append_right {α : Type} {k : String} {l1 l2 : List (String × α)}
    (h : List.lookup k l1 = none) : List.lookup k (l1 ++ l2) = List.lookup k l2 := by
  induction l1 with
  | nil => rfl
  | cons pr rest ih =>
    obtain ⟨a, b⟩ := pr
    rw [List.lookup] at h
    rw [List.cons_append, List.lookup]
    cases hk : (k == a) with
    | true => rw [hk] at h; cases h
    | false => rw [hk] at h; exact ih h

theorem lookup_not_mem_keys {α : Type} {k : String} {l : List (String × α)}
    (h : ∀ pr ∈ l, pr.1 ≠ k) : List.lookup k l = none := by
  induction l with
  | nil => rfl
  | cons pr rest ih =>
    obtain ⟨a, b⟩ := pr
    rw [List.lookup]
    cases hk : (k == a) with
    | true =>
      exact absurd (beq_iff_eq.mp hk).symm (h (a, b) (List.mem_cons_self _ _))
    | false => exact ih (fun q hq => h q (List.mem_cons_of_mem _ hq))

theorem lookup_map_pair_self {l : List String} {x current : String} (hx : x ∈ l) :
    List.lookup x (l.map (fun y => (y, current))) = some current := by
  induction l with
  | nil => cases hx
  | cons y rest ih =>
    rw [List.map_cons, List.lookup]
    by_cases hxy : x = y
    · have : (x == y) = true := beq_iff_eq.mpr hxy
      rw [this]
    · have : (x == y) = false := by simp [hxy]
      rw [this]
      rcases List.mem_cons.mp hx with h | h
      · exact absurd h hxy
      · exact ih h

theorem lookup_map_pair_none {l : List String} {x current : String} (hx : x ∉ l) :
    List.lookup x (l.map (fun y => (y, current))) = none := by
  apply lookup_not_mem_keys
  intro pr hpr hc
  obtain ⟨y, hy, hyeq⟩ := List.mem_map.mp hpr
  rw [← hyeq] at hc
  simp at hc
  exact hx (hc ▸ hy)

theorem isSome_lookup_mem_keys {α : Type} {k : String} {l : List (String × α)}
    (h : (List.lookup k l).isSome = true) : k ∈ l.map Prod.fst := by
  rcases hv : List.lookup k l with _ | v
  · rw [hv] at h; cases h
  · exact List.mem_map.mpr ⟨(k, v), lookup_mem hv, rfl⟩

theorem adjacent_symm {g : Graph} {a b : String} (h : adjacent g a b) : adjacent g b a := by
  obtain ⟨ch, hch, hen, hdir⟩ := h
  exact ⟨ch, hch, hen, hdir.symm⟩

theorem walk_zero {g : Graph} {a b : String} (h : Walk g a b 0) : b = a := by
  cases h
  rfl

theorem walk_front {g : Graph} {a c : String} {n : Nat} (h : Walk g a c n) (hn : 1 ≤ n) :
    ∃ b, adjacent g a b ∧ Walk g b c (n - 1) := by
  induction h with
  | nil => exact absurd hn (by omega)
  | cons w adj ih =>
    rename_i b c' m
    rcases Nat.eq_zero_or_pos m with h0 | h1
    · subst h0
      have hba := walk_zero w
      subst hba
      exact ⟨c', adj, by simpa using Walk.nil⟩
    · obtain ⟨y, hay, hyw⟩ := ih h1
      refine ⟨y, hay, ?_⟩
      have : m - 1 + 1 = m := by omega
      simpa [Nat.add_sub_cancel] using this ▸ Walk.cons hyw adj

theorem pchain_unique {parent : List (String × String)} {fr : String}
    (hfr : List.lookup fr parent = none) {v : String} {l : List String}
    (h : PChain parent fr v l) :
    ∀ l', PChain parent fr v l' → l = l' := by
  induction h with
  | nil =>
    intro l' h'
    cases h' with
    | nil => rfl
    | cons hlk _ => rw [hfr] at hlk; cases hlk
  | cons hlk hpc ih =>
    intro l' h'
    cases h' with
    | nil => rw [hfr] at hlk; cases hlk
    | cons hlk' hpc' =>
      rw [hlk] at hlk'
      cases hlk'
      rw [ih _ hpc']

theorem pchain_append {parent ext : List (String × String)} {fr v : String}
    {l : List String} (h : PChain parent fr v l) : PChain (parent ++ ext) fr v l := by
  induction h with
  | nil => exact PChain.nil
  | cons hlk _ ih => exact PChain.cons (lookup_append_left hlk) ih

theorem pchain_elems {parent : List (String × String)} {fr v : String} {l : List String}
    (h : PChain parent fr v l) : ∀ x ∈ l, (List.lookup x parent).isSome = true := by
  induction h with
  | nil => simp
  | cons hlk _ ih =>
    intro x hx
    rcases List.mem_cons.mp hx with h | h
    · subst h; rw [hlk]; rfl
    · exact ih x h

theorem pchain_length_le {parent : List (String × String)} {fr v : String}
    {l : List String} (h : PChain parent fr v l) (hnd : l.Nodup) :
    l.length ≤ parent.length := by
  have hsub : l.toFinset ⊆ (parent.map Prod.fst).toFinset := by
    intro x hx
    exact List.mem_toFinset.mpr (isSome_lookup_mem_keys
      (pchain_elems h x (List.mem_toFinset.mp hx)))
  calc l.length = l.toFinset.card := (List.toFinset_card_of_nodup hnd).symm
    _ ≤ (parent.map Prod.fst).toFinset.card := Finset.card_le_card hsub
    _ ≤ (parent.map Prod.fst).length := List.toFinset_card_le _
    _ = parent.length := List.length_map _ _

theorem pchain_restrict {parent ext : List (String × String)} {fr : String}
    {visited : Finset String}
    (hkeys : ∀ x, (List.lookup x parent).isSome = true ↔ (x ∈ visited ∧ x ≠ fr))
    (hval : ∀ pr ∈ parent, pr.2 ∈ visited)
    (hext : ∀ pr ∈ ext, pr.1 ∉ visited)
    {v : String} {l : List String} (h : PChain (parent ++ ext) fr v l)
    (hv : v ∈ visited) : PChain parent fr v l := by
  induction h with
  | nil => exact PChain.nil
  | cons hlk hpc ih =>
    rename_i v' p' l'
    by_cases hvfr : v' = fr
    · exfalso
      have h1 : List.lookup v' parent = none := by
        rcases ho : List.lookup v' parent with _ | q
        · rfl
        · have := (hkeys v').mp (by rw [ho]; rfl)
          exact absurd hvfr this.2
      have h2 : List.lookup v' ext = none :=
        lookup_not_mem_keys (fun pr hpr hc => hext pr hpr (hc ▸ hv))
      rw [lookup_append_right h1, h2] at hlk
      cases hlk
    · have hs : (List.lookup v' parent).isSome = true := (hkeys v').mpr ⟨hv, hvfr⟩
      rcases ho : List.lookup v' parent with _ | q
      · rw [ho] at hs; cases hs
      · have h3 : List.lookup v' (parent ++ ext) = some q := lookup_append_left ho
        rw [h3] at hlk
        injection hlk with hq
        subst hq
        exact PChain.cons ho (ih (hval (v', q) (lookup_mem ho)))

theorem build_path_eq {parent : List (String × String)} {fr : String}
    (hfr : List.lookup fr parent = none) {v : String} {l : List String}
    (h : PChain parent fr v l) :
    ∀ fuel, l.length ≤ fuel → ∀ acc, build_path parent fuel v acc = acc ++ l := by
  induction h with
  | nil =>
    intro fuel _ acc
    cases fuel with
    | zero => simp [build_path]
    | succ f => simp [build_path, hfr]
  | cons hlk hpc ih =>
    rename_i v' p' l'
    intro fuel hfuel acc
    cases fuel with
    | zero => exact absurd hfuel (by simp)
    | succ f =>
      rw [build_path, hlk]
      show build_path parent f p' (acc ++ [v']) = acc ++ v' :: l'
      rw [ih f (by simpa using hfuel) (acc ++ [v'])]
      simp

theorem pchain_head {parent : List (String × String)} {fr v : String} {l : List String}
    (h : PChain parent fr v l) : (l ++ [fr]).head? = some v := by
  cases h with
  | nil => rfl
  | cons hlk hpc => rfl

theorem pchain_chain_adj {g : Graph} {parent : List (String × String)} {fr v : String}
    {l : List String} (hPadj : ∀ pr ∈ parent, adjacent g pr.1 pr.2)
    (h : PChain parent fr v l) : List.Chain' (fun a b => adjacent g a b) (l ++ [fr]) := by
  induction h with
  | nil => simp
  | cons hlk hpc ih =>
    rename_i v' p' l'
    rw [List.cons_append]
    refine List.chain'_cons'.mpr ⟨?_, ih⟩
    intro b hb
    have hh := pchain_head hpc
    rw [Option.mem_def, hh] at hb
    cases hb
    exact hPadj (v', p') (lookup_mem hlk)

theorem walk_to_path {g : Graph} {a b : String} {n : Nat} (h : Walk g a b n) :
    ∃ p : List String, p.head? = some a ∧ p.getLast? = some b ∧
      List.Chain' (fun x y => adjacent g x y) p ∧ p.length = n + 1 := by
  induction h with
  | nil => exact ⟨[a], rfl, rfl, by simp, rfl⟩
  | cons w adj ih =>
    rename_i b' c m
    obtain ⟨p, hhead, hlast, hchain, hlen⟩ := ih
    rcases p with _ | ⟨x, xs⟩
    · cases hhead
    refine ⟨x :: xs ++ [c], by simpa using hhead, ?_, ?_, by simpa using hlen⟩
    · exact List.getLast?_concat _
    · refine (List.chain'_append).mpr ⟨hchain, by simp, ?_⟩
      intro y hy z hz
      rw [Option.mem_def, hlast] at hy
      cases hy
      rw [Option.mem_def] at hz
      simp at hz
      subst hz
      exact adj

theorem path_to_walk {g : Graph} :
    ∀ p : List String, ∀ a b : String, p.head? = some a → p.getLast? = some b →
      List.Chain' (fun x y => adjacent g x y) p → Walk g a b (p.length - 1) := by
  intro p
  induction p using List.reverseRecOn with
  | nil => intro a b h; cases h
  | append_singleton l x ih =>
    intro a b hhead hlast hchain
    have hb : b = x := by
      rw [List.getLast?_concat] at hlast
      cases hlast
      rfl
    subst hb
    rcases l with _ | ⟨y, ys⟩
    · simp at hhead
      cases hhead
      simpa using Walk.nil
    · have hhead' : (y :: ys).head? = some a := by
        rw [List.cons_append] at hhead
        simpa using hhead
      obtain ⟨hchain1, -, hconn⟩ := (List.chain'_append).mp hchain
      have hlast' : (y :: ys).getLast? = some ((y :: ys).getLast (by simp)) :=
        List.getLast?_eq_getLast _ _
      have hw := ih a ((y :: ys).getLast (by simp)) hhead' hlast' hchain1
      have hadj : adjacent g ((y :: ys).getLast (by simp)) b :=
        hconn _ hlast' _ rfl
      have hlen : (y :: ys).length - 1 + 1 = ((y :: ys) ++ [b]).length - 1 := by
        simp
      exact hlen ▸ Walk.cons hw hadj

theorem mem_endPoints_aux (l : List (String × NetworkChannelInfo))
    (pr : String × NetworkChannelInfo) (hpr : pr ∈ l) :
    pr.2.node1 ∈ l.foldr (fun pr s => insert pr.2.node1 (insert pr.2.node2 s))
        (∅ : Finset String) ∧
      pr.2.node2 ∈ l.foldr (fun pr s => insert pr.2.node1 (insert pr.2.node2 s))
        (∅ : Finset String) := by
  induction l with
  | nil => cases hpr
  | cons hd tl ih =>
    rw [List.foldr_cons]
    rcases List.mem_cons.mp hpr with h | h
    · subst h
      constructor
      · exact Finset.mem_insert_self _ _
      · exact Finset.mem_insert_of_mem (Finset.mem_insert_self _ _)
    · obtain ⟨h1, h2⟩ := ih h
      exact ⟨Finset.mem_insert_of_mem (Finset.mem_insert_of_mem h1),
        Finset.mem_insert_of_mem (Finset.mem_insert_of_mem h2)⟩

theorem mem_endPoints {g : Graph} {ch : NetworkChannelInfo}
    (h : ch ∈ g.channels.map Prod.snd) :
    ch.node1 ∈ endPoints g ∧ ch.node2 ∈ endPoints g := by
  obtain ⟨pr, hpr, hpreq⟩ := List.mem_map.mp h
  rw [endPoints, ← hpreq]
  exact mem_endPoints_aux g.channels pr hpr

theorem card_endPoints_aux (l : List (String × NetworkChannelInfo)) :
    (l.foldr (fun pr s => insert pr.2.node1 (insert pr.2.node2 s))
        (∅ : Finset String)).card ≤ 2 * l.length := by
  induction l with
  | nil => simp
  | cons hd tl ih =>
    rw [List.foldr_cons]
    calc (insert hd.2.node1 (insert hd.2.node2
          (tl.foldr (fun pr s => insert pr.2.node1 (insert pr.2.node2 s))
            (∅ : Finset String)))).card
        ≤ (insert hd.2.node2
            (tl.foldr (fun pr s => insert pr.2.node1 (insert pr.2.node2 s))
              (∅ : Finset String))).card + 1 :=
          Finset.card_insert_le _ _
      _ ≤ (tl.foldr (fun pr s => insert pr.2.node1 (insert pr.2.node2 s))
            (∅ : Finset String)).card + 1 + 1 :=
          Nat.add_le_add_right (Finset.card_insert_le _ _) 1
      _ ≤ 2 * tl.length + 1 + 1 :=
          Nat.add_le_add_right (Nat.add_le_add_right ih 1) 1
      _ = 2 * (hd :: tl).length := by simp [List.length_cons]; ring

theorem card_endPoints_le (g : Graph) : (endPoints g).card ≤ 2 * g.channels.length := by
  rw [endPoints]
  exact card_endPoints_aux g.channels

theorem mem_get_node_channels {g : Graph} {current : String} {ch : NetworkChannelInfo} :
    ch ∈ get_node_channels g current ↔
      ch ∈ g.channels.map Prod.snd ∧ (ch.node1 = current ∨ ch.node2 = current) := by
  rw [get_node_channels, List.mem_filter]
  constructor
  · rintro ⟨h1, h2⟩
    refine ⟨h1, ?_⟩
    rcases Bool.or_eq_true_iff.mp h2 with h | h
    · exact Or.inl (beq_iff_eq.mp h)
    · exact Or.inr (beq_iff_eq.mp h)
  · rintro ⟨h1, h2⟩
    refine ⟨h1, ?_⟩
    rcases h2 with h | h
    · exact Bool.or_eq_true_iff.mpr (Or.inl (beq_iff_eq.mpr h))
    · exact Bool.or_eq_true_iff.mpr (Or.inr (beq_iff_eq.mpr h))

theorem adjacent_of_channel {g : Graph} {current : String} {ch : NetworkChannelInfo}
    (h : ch ∈ get_node_channels g current) (hen : ch.is_enabled = true) :
    adjacent g current (next_node current ch) := by
  obtain ⟨h1, h2⟩ := mem_get_node_channels.mp h
  rw [next_node]
  by_cases hn1 : ch.node1 = current
  · rw [if_pos hn1]
    exact ⟨ch, h1, hen, Or.inl ⟨hn1, rfl⟩⟩
  · rw [if_neg hn1]
    have hn2 : ch.node2 = current := h2.resolve_left hn1
    exact ⟨ch, h1, hen, Or.inr ⟨rfl, hn2⟩⟩

theorem channel_of_adjacent {g : Graph} {current w : String}
    (h : adjacent g current w) :
    ∃ ch ∈ get_node_channels g current, ch.is_enabled = true ∧
      next_node current ch = w := by
  obtain ⟨ch, hch, hen, hdir⟩ := h
  rcases hdir with ⟨h1, h2⟩ | ⟨h1, h2⟩
  · refine ⟨ch, mem_get_node_channels.mpr ⟨hch, Or.inl h1⟩, hen, ?_⟩
    rw [next_node, if_pos h1]
    exact h2
  · refine ⟨ch, mem_get_node_channels.mpr ⟨hch, Or.inr h2⟩, hen, ?_⟩
    rw [next_node]
    by_cases hcur : ch.node1 = current
    · rw [if_pos hcur, h2, ← hcur]
      exact h1
    · rw [if_neg hcur]
      exact h1

theorem next_node_mem_endPoints {g : Graph} {current : String} {ch : NetworkChannelInfo}
    (h : ch ∈ g.channels.map Prod.snd) : next_node current ch ∈ endPoints g := by
  rw [next_node]
  by_cases hn1 : ch.node1 = current
  · rw [if_pos hn1]; exact (mem_endPoints h).2
  · rw [if_neg hn1]; exact (mem_endPoints h).1

theorem frontier {g : Graph} {fr tgt : String} {st : BfsState}
    (inv : Inv g fr tgt st) :
    ∀ m t, t ∈ st.visited → ∀ lt, PChain st.parent fr t lt →
      ∀ w, w ∉ st.visited → 1 ≤ m → Walk g t w m →
      ∃ x ∈ st.queue, ∃ lx, PChain st.parent fr x lx ∧
        ∃ m', 1 ≤ m' ∧ Walk g x w m' ∧ lx.length + m' ≤ lt.length + m := by
  intro m
  induction m using Nat.strong_induction_on with
  | _ m ih =>
    intro t ht lt hlt w hw hm hwalk
    by_cases htq : t ∈ st.queue
    · exact ⟨t, htq, lt, hlt, m, hm, hwalk, le_refl _⟩
    · obtain ⟨y, hay, hyw⟩ := walk_front hwalk hm
      have hyvis : y ∈ st.visited := inv.hClosed t ht htq y hay
      have hm1 : 1 ≤ m - 1 := by
        rcases Nat.eq_zero_or_pos (m - 1) with h0 | h1
        · rw [h0] at hyw
          exact absurd ((walk_zero hyw) ▸ hyvis) hw
        · exact h1
      obtain ⟨ly, hly, -, -⟩ := inv.hChain y hyvis
      have hlevel : ly.length ≤ lt.length + 1 :=
        inv.hClosedLevel t ht htq y hay lt ly hlt hly
      obtain ⟨x, hxq, lx, hlx, m', hm', hwx, hle⟩ :=
        ih (m - 1) (by omega) y hyvis ly hly w hw hm1 hyw
      exact ⟨x, hxq, lx, hlx, m', hm', hwx, by omega⟩

theorem no_walk_of_queue_nil {g : Graph} {fr tgt : String} {st : BfsState}
    (inv : Inv g fr tgt st) (hq : st.queue = []) {w : String} (hw : w ∉ st.visited)
    {n : Nat} (hwalk : Walk g fr w n) : False := by
  have hne : n ≠ 0 := by
    intro h0
    rw [h0] at hwalk
    exact hw ((walk_zero hwalk) ▸ inv.hFr)
  obtain ⟨x, hxq, -⟩ := frontier inv n fr inv.hFr [] PChain.nil w hw (by omega) hwalk
  rw [hq] at hxq
  cases hxq

theorem relax_fold_spec (current : String) :
    ∀ (chs : List NetworkChannelInfo) (q : List String) (vis : Finset String)
      (par : List (String × String)),
      ∃ N : List String,
        (chs.foldl (bfs_relax current) ⟨q, vis, par⟩).queue = q ++ N ∧
          (chs.foldl (bfs_relax current) ⟨q, vis, par⟩).visited = vis ∪ N.toFinset ∧
          (chs.foldl (bfs_relax current) ⟨q, vis, par⟩).parent =
            par ++ N.map (fun x => (x, current)) ∧
          N.Nodup ∧
          (∀ x ∈ N, x ∉ vis) ∧
          (∀ x ∈ N, ∃ ch ∈ chs, ch.is_enabled = true ∧ next_node current ch = x) ∧
          (∀ ch ∈ chs, ch.is_enabled = true →
            next_node current ch ∈ vis ∪ N.toFinset) := by
  intro chs
  induction chs with
  | nil =>
    intro q vis par
    exact ⟨[], by simp, by simp, by simp, by simp, by simp, by simp, by simp⟩
  | cons ch chs' ih =>
    intro q vis par
    rw [List.foldl_cons]
    by_cases hcond : next_node current ch ∉ vis ∧ ch.is_enabled = true
    · have hrelax : bfs_relax current ⟨q, vis, par⟩ ch =
          ⟨q ++ [next_node current ch], insert (next_node current ch) vis,
            par ++ [(next_node current ch, current)]⟩ := by
        rw [bfs_relax]
        exact if_pos hcond
      rw [hrelax]
      obtain ⟨N', hq, hv, hp, hnd, hnvis, hwit, hcompl⟩ :=
        ih (q ++ [next_node current ch]) (insert (next_node current ch) vis)
          (par ++ [(next_node current ch, current)])
      refine ⟨next_node current ch :: N', ?_, ?_, ?_, ?_, ?_, ?_, ?_⟩
      · rw [hq]; simp
      · rw [hv]
        ext z
        simp [List.toFinset_cons]
      · rw [hp]; simp
      · refine List.nodup_cons.mpr ⟨?_, hnd⟩
        intro hmem
        exact hnvis _ hmem (Finset.mem_insert_self _ _)
      · intro x hx
        rcases List.mem_cons.mp hx with h | h
        · subst h; exact hcond.1
        · intro hxv
          exact hnvis x h (Finset.mem_insert_of_mem hxv)
      · intro x hx
        rcases List.mem_cons.mp hx with h | h
        · exact ⟨ch, List.mem_cons_self _ _, hcond.2, h.symm⟩
        · obtain ⟨ch', hch', hen', heq'⟩ := hwit x h
          exact ⟨ch', List.mem_cons_of_mem _ hch', hen', heq'⟩
      · intro ch' hch' hen'
        rcases List.mem_cons.mp hch' with h | h
        · subst h
          exact Finset.mem_union_right _ (List.mem_toFinset.mpr
            (List.mem_cons_self _ _))
        · have := hcompl ch' h hen'
          rcases Finset.mem_union.mp this with h2 | h2
          · rcases Finset.mem_insert.mp h2 with h3 | h3
            · exact Finset.mem_union_right _ (List.mem_toFinset.mpr
                (h3 ▸ List.mem_cons_self _ _))
            · exact Finset.mem_union_left _ h3
          · exact Finset.mem_union_right _ (List.mem_toFinset.mpr
              (List.mem_cons_of_mem _ (List.mem_toFinset.mp h2)))
    · have hrelax : bfs_relax current ⟨q, vis, par⟩ ch = ⟨q, vis, par⟩ := by
        rw [bfs_relax]
        exact if_neg hcond
      rw [hrelax]
      obtain ⟨N', hq, hv, hp, hnd, hnvis, hwit, hcompl⟩ := ih q vis par
      refine ⟨N', hq, hv, hp, hnd, hnvis, ?_, ?_⟩
      · intro x hx
        obtain ⟨ch', hch', hen', heq'⟩ := hwit x hx
        exact ⟨ch', List.mem_cons_of_mem _ hch', hen', heq'⟩
      · intro ch' hch' hen'
        rcases List.mem_cons.mp hch' with h | h
        · subst h
          push_neg at hcond
          exact Finset.mem_union_left _ (not_not.mp
            (fun hnn => (hen' ▸ hcond hnn) rfl))
        · exact hcompl ch' h hen'

theorem forall2_append {α β : Type} {P : α → β → Prop} :
    ∀ {l1 : List α} {k1 : List β}, List.Forall₂ P l1 k1 →
      ∀ {l2 : List α} {k2 : List β}, List.Forall₂ P l2 k2 →
        List.Forall₂ P (l1 ++ l2) (k1 ++ k2) := by
  intro l1 k1 h1
  induction h1 with
  | nil => intro l2 k2 h2; simpa using h2
  | cons hab _ ih =>
    intro l2 k2 h2
    exact List.Forall₂.cons hab (ih h2)

theorem forall2_mem_left {α β : Type} {P : α → β → Prop} :
    ∀ {l : List α} {ks : List β}, List.Forall₂ P l ks →
      ∀ x ∈ l, ∃ k ∈ ks, P x k := by
  intro l ks h
  induction h with
  | nil => intro x hx; cases hx
  | cons hab _ ih =>
    intro x hx
    rcases List.mem_cons.mp hx with h | h
    · subst h; exact ⟨_, List.mem_cons_self _ _, hab⟩
    · obtain ⟨k, hk, hP⟩ := ih x h
      exact ⟨k, List.mem_cons_of_mem _ hk, hP⟩

theorem forall2_replicate {α β : Type} {P : α → β → Prop} {k : β} :
    ∀ (l : List α), (∀ x ∈ l, P x k) →
      List.Forall₂ P l (List.replicate l.length k) := by
  intro l
  induction l with
  | nil => intro _; exact List.Forall₂.nil
  | cons x xs ih =>
    intro h
    rw [List.length_cons, List.replicate_succ]
    exact List.Forall₂.cons (h x (List.mem_cons_self _ _))
      (ih (fun y hy => h y (List.mem_cons_of_mem _ hy)))

theorem inv_step {g : Graph} {fr tgt : String} {st : BfsState} {current : String}
    {rest : List String} (inv : Inv g fr tgt st) (hq : st.queue = current :: rest)
    (hct : current ≠ tgt) :
    Inv g fr tgt ((get_node_channels g current).foldl (bfs_relax current)
        ⟨rest, st.visited, st.parent⟩) ∧
      bfs_measure g fr ((get_node_channels g current).foldl (bfs_relax current)
          ⟨rest, st.visited, st.parent⟩) + 1 = bfs_measure g fr st := by
  obtain ⟨N, hq2, hv2, hp2, hnd, hnvis, hwit, hcompl⟩ :=
    relax_fold_spec current (get_node_channels g current) rest st.visited st.parent
  have hcur_vis : current ∈ st.visited :=
    inv.hQvis current (by rw [hq]; exact List.mem_cons_self _ _)
  have hfrnone : List.lookup fr st.parent = none := by
    rcases ho : List.lookup fr st.parent with _ | q0
    · rfl
    · exact absurd rfl ((inv.hKeys fr).mp (by rw [ho]; rfl)).2
  obtain ⟨lc, hlc, hlcnd, hlcw⟩ := inv.hChain current hcur_vis
  have hNadj : ∀ x ∈ N, adjacent g current x := by
    intro x hx
    obtain ⟨ch, hch, hen, heq⟩ := hwit x hx
    exact heq ▸ adjacent_of_channel hch hen
  have hNend : ∀ x ∈ N, x ∈ endPoints g := by
    intro x hx
    obtain ⟨ch, hch, hen, heq⟩ := hwit x hx
    have hch2 : ch ∈ g.channels.map Prod.snd := (mem_get_node_channels.mp hch).1
    exact heq ▸ next_node_mem_endPoints hch2
  have hNnfr : ∀ x ∈ N, x ≠ fr := fun x hx hxf => hnvis x hx (hxf ▸ inv.hFr)
  have hext : ∀ pr ∈ N.map (fun x => (x, current)), pr.1 ∉ st.visited := by
    intro pr hpr
    obtain ⟨x, hx, hxeq⟩ := List.mem_map.mp hpr
    rw [← hxeq]
    exact hnvis x hx
  have hrestrict : ∀ {v : String} {l : List String}, v ∈ st.visited →
      PChain (st.parent ++ N.map (fun x => (x, current))) fr v l →
      PChain st.parent fr v l :=
    fun hv hl => pchain_restrict inv.hKeys inv.hPval hext hl hv
  have hlookN : ∀ x ∈ N,
      List.lookup x (st.parent ++ N.map (fun y => (y, current))) = some current := by
    intro x hx
    have h1 : List.lookup x st.parent = none := by
      rcases ho : List.lookup x st.parent with _ | q0
      · rfl
      · exact absurd ((inv.hKeys x).mp (by rw [ho]; rfl)).1 (hnvis x hx)
    rw [lookup_append_right h1]
    exact lookup_map_pair_self hx
  have hnewchain : ∀ v l, v ∉ st.visited →
      PChain (st.parent ++ N.map (fun y => (y, current))) fr v l →
      v ∈ N ∧ l = v :: lc := by
    intro v l hv h
    cases h with
    | nil => exact absurd inv.hFr hv
    | cons hlk hrest2 =>
      rename_i p l2
      have h1 : List.lookup v st.parent = none := by
        rcases ho : List.lookup v st.parent with _ | q0
        · rfl
        · exact absurd ((inv.hKeys v).mp (by rw [ho]; rfl)).1 hv
      rw [lookup_append_right h1] at hlk
      by_cases hvN : v ∈ N
      · have h2 : List.lookup v (N.map (fun y => (y, current))) = some current :=
          lookup_map_pair_self hvN
        rw [h2] at hlk
        injection hlk with hpc
        subst hpc
        have hres : PChain st.parent fr current l2 := hrestrict hcur_vis hrest2
        have h3 : lc = l2 := pchain_unique hfrnone hlc l2 hres
        exact ⟨hvN, by rw [← h3]⟩
      · rw [lookup_map_pair_none hvN] at hlk
        cases hlk
  obtain ⟨d, a, b, ks, hfa, hks⟩ := inv.hLevels
  rw [hq] at hfa
  cases hfa with
  | cons hPc hfar =>
    rename_i kc ksrest
    obtain ⟨l0, hl0, hl0len⟩ := hPc
    have hkc : kc = lc.length := by
      rw [← hl0len, pchain_unique hfrnone hlc l0 hl0]
    have hshape : (∃ a2, ksrest = List.replicate a2 d ++ List.replicate b (d + 1) ∧ kc = d) ∨
        (∃ b2, ksrest = List.replicate b2 (d + 1) ∧ kc = d + 1) := by
      cases a with
      | zero =>
        rw [List.replicate_zero, List.nil_append] at hks
        cases b with
        | zero => rw [List.replicate_zero] at hks; cases hks
        | succ b2 =>
          rw [List.replicate_succ] at hks
          injection hks with h1 h2
          exact Or.inr ⟨b2, h2, h1⟩
      | succ a2 =>
        rw [List.replicate_succ, List.cons_append] at hks
        injection hks with h1 h2
        exact Or.inl ⟨a2, h2, h1⟩
    have hge : ∀ k ∈ ksrest, kc ≤ k := by
      rcases hshape with ⟨a2, hsh, hkd⟩ | ⟨b2, hsh, hkd⟩
      · intro k hk
        rw [hsh] at hk
        rcases List.mem_append.mp hk with h | h
        · have := List.eq_of_mem_replicate h; omega
        · have := List.eq_of_mem_replicate h; omega
      · intro k hk
        rw [hsh] at hk
        have := List.eq_of_mem_replicate hk; omega
    have hks2 : ∃ d2 a2 b2, ksrest ++ List.replicate N.length (kc + 1) =
        List.replicate a2 d2 ++ List.replicate b2 (d2 + 1) := by
      rcases hshape with ⟨a2, hsh, hkd⟩ | ⟨b2, hsh, hkd⟩
      · subst hkd
        refine ⟨kc, a2, b + N.length, ?_⟩
        rw [hsh, List.append_assoc, ← List.replicate_add]
      · refine ⟨kc, b2, N.length, ?_⟩
        rw [hsh, ← hkd]
    have hfar2 : List.Forall₂ (fun v k => ∃ l,
        PChain (st.parent ++ N.map (fun y => (y, current))) fr v l ∧ l.length = k)
        (rest ++ N) (ksrest ++ List.replicate N.length (kc + 1)) := by
      refine forall2_append (List.Forall₂.imp ?_ hfar) (forall2_replicate N ?_)
      · intro v k h
        obtain ⟨l, hl, hlen⟩ := h
        exact ⟨l, pchain_append hl, hlen⟩
      · intro x hx
        refine ⟨x :: lc, PChain.cons (hlookN x hx) (pchain_append hlc), ?_⟩
        simp [hkc]
    refine ⟨⟨?_, ?_, ?_, ?_, ?_, ?_, ?_, ?_, ?_, ?_, ?_, ?_, ?_⟩, ?_⟩
    · rw [hq2, hv2]
      intro v hv
      rcases List.mem_append.mp hv with h | h
      · exact Finset.mem_union_left _
          (inv.hQvis v (by rw [hq]; exact List.mem_cons_of_mem _ h))
      · exact Finset.mem_union_right _ (List.mem_toFinset.mpr h)
    · rw [hq2]
      have hrnd : rest.Nodup := by
        have h0 := inv.hQnodup
        rw [hq] at h0
        exact (List.nodup_cons.mp h0).2
      refine List.Nodup.append hrnd hnd ?_
      intro x hxr hxN
      exact hnvis x hxN
        (inv.hQvis x (by rw [hq]; exact List.mem_cons_of_mem _ hxr))
    · rw [hv2]
      exact Finset.mem_union_left _ inv.hFr
    · rw [hv2]
      intro x hx
      rcases Finset.mem_union.mp hx with h | h
      · exact inv.hVsub h
      · show x ∈ insert fr (endPoints g)
        exact Finset.mem_insert_of_mem (hNend x (List.mem_toFinset.mp h))
    · rw [hv2, hp2]
      intro v
      constructor
      · intro hs
        rcases ho : List.lookup v st.parent with _ | q0
        · rw [lookup_append_right ho] at hs
          by_cases hvN : v ∈ N
          · exact ⟨Finset.mem_union_right _ (List.mem_toFinset.mpr hvN), hNnfr v hvN⟩
          · rw [lookup_map_pair_none hvN] at hs
            cases hs
        · have h1 := (inv.hKeys v).mp (by rw [ho]; rfl)
          exact ⟨Finset.mem_union_left _ h1.1, h1.2⟩
      · intro hv3
        obtain ⟨hu, hnf⟩ := hv3
        rcases Finset.mem_union.mp hu with h | h
        · have hs := (inv.hKeys v).mpr ⟨h, hnf⟩
          rcases ho : List.lookup v st.parent with _ | q0
          · rw [ho] at hs; cases hs
          · rw [lookup_append_left ho]; rfl
        · rw [hlookN v (List.mem_toFinset.mp h)]; rfl
    · rw [hp2]
      intro pr hpr
      rcases List.mem_append.mp hpr with h | h
      · exact inv.hPadj pr h
      · obtain ⟨x, hx, hxeq⟩ := List.mem_map.mp h
        rw [← hxeq]
        exact adjacent_symm (hNadj x hx)
    · rw [hp2, hv2]
      intro pr hpr
      rcases List.mem_append.mp hpr with h | h
      · exact Finset.mem_union_left _ (inv.hPval pr h)
      · obtain ⟨x, hx, hxeq⟩ := List.mem_map.mp h
        rw [← hxeq]
        exact Finset.mem_union_left _ hcur_vis
    · rw [hv2, hp2]
      intro v hv
      rcases Finset.mem_union.mp hv with h | h
      · obtain ⟨l, hl, hlnd, hlw⟩ := inv.hChain v h
        exact ⟨l, pchain_append hl, hlnd, hlw⟩
      · have hvN := List.mem_toFinset.mp h
        refine ⟨v :: lc, PChain.cons (hlookN v hvN) (pchain_append hlc), ?_, ?_⟩
        · refine List.nodup_cons.mpr ⟨?_, hlcnd⟩
          intro hvlc
          exact hnvis v hvN ((inv.hKeys v).mp (pchain_elems hlc v hvlc)).1
        · rw [List.length_cons]
          exact Walk.cons hlcw (hNadj v hvN)
    · rw [hp2]
      intro v l hl n hw
      by_cases hvis : v ∈ st.visited
      · exact inv.hMin v l (hrestrict hvis hl) n hw
      · obtain ⟨hvN, hleq⟩ := hnewchain v l hvis hl
        subst hleq
        have hn1 : 1 ≤ n := by
          rcases Nat.eq_zero_or_pos n with h0 | h1
          · subst h0
            have h2 := walk_zero hw
            rw [h2] at hvis
            exact absurd inv.hFr hvis
          · exact h1
        obtain ⟨x, hxq, lx, hlx, m2, hm2, hwx, hle⟩ :=
          frontier inv n fr inv.hFr [] PChain.nil v hvis hn1 hw
        rw [hq] at hxq
        have hxlen : kc ≤ lx.length := by
          rcases List.mem_cons.mp hxq with hxc | hxr
          · subst hxc
            have h3 : lc = lx := pchain_unique hfrnone hlc lx hlx
            rw [hkc, h3]
          · obtain ⟨k, hkks, hPk⟩ := forall2_mem_left hfar x hxr
            obtain ⟨l2, hl2, hl2len⟩ := hPk
            have h1 := hge k hkks
            have h2 : l2 = lx := pchain_unique hfrnone hl2 lx hlx
            rw [← hl2len, h2] at h1
            exact h1
        have hle2 : lx.length + m2 ≤ n := by simpa using hle
        rw [List.length_cons, ← hkc]
        omega
    · rw [hq2, hp2]
      obtain ⟨d2, a2, b2, hshEq⟩ := hks2
      exact ⟨d2, a2, b2, ksrest ++ List.replicate N.length (kc + 1), hfar2, hshEq⟩
    · rw [hv2, hq2]
      intro u hu hunq w hadj
      rcases Finset.mem_union.mp hu with huv | huN
      · by_cases huc : u = current
        · subst huc
          obtain ⟨ch, hch, hen, heq⟩ := channel_of_adjacent hadj
          rw [← heq]
          exact hcompl ch hch hen
        · have hunq2 : u ∉ st.queue := by
            rw [hq]
            intro hmem
            rcases List.mem_cons.mp hmem with h | h
            · exact huc h
            · exact hunq (List.mem_append.mpr (Or.inl h))
          exact Finset.mem_union_left _ (inv.hClosed u huv hunq2 w hadj)
      · exact absurd (List.mem_append.mpr (Or.inr (List.mem_toFinset.mp huN))) hunq
    · rw [hv2, hq2, hp2]
      intro u hu hunq w hadj lu lw hlu hlw
      rcases Finset.mem_union.mp hu with huv | huN
      · have hluR : PChain st.parent fr u lu := hrestrict huv hlu
        by_cases huc : u = current
        · subst huc
          have hluc : lu = lc := (pchain_unique hfrnone hlc lu hluR).symm
          by_cases hwv : w ∈ st.visited
          · have hlwR := hrestrict hwv hlw
            have hwalkw : Walk g fr w (lc.length + 1) := Walk.cons hlcw hadj
            have h4 := inv.hMin w lw hlwR (lc.length + 1) hwalkw
            rw [hluc]
            exact h4
          · obtain ⟨hwN, hlweq⟩ := hnewchain w lw hwv hlw
            rw [hlweq, hluc]
            simp
        · have hunq2 : u ∉ st.queue := by
            rw [hq]
            intro hmem
            rcases List.mem_cons.mp hmem with h | h
            · exact huc h
            · exact hunq (List.mem_append.mpr (Or.inl h))
          have hwv : w ∈ st.visited := inv.hClosed u huv hunq2 w hadj
          exact inv.hClosedLevel u huv hunq2 w hadj lu lw hluR (hrestrict hwv hlw)
      · exact absurd (List.mem_append.mpr (Or.inr (List.mem_toFinset.mp huN))) hunq
    · rw [hv2, hq2]
      intro ht
      rcases Finset.mem_union.mp ht with h | h
      · have h0 := inv.hTo h
        rw [hq] at h0
        rcases List.mem_cons.mp h0 with h2 | h2
        · exact absurd h2.symm hct
        · exact List.mem_append.mpr (Or.inl h2)
      · exact List.mem_append.mpr (Or.inr (List.mem_toFinset.mp h))
    · rw [bfs_measure, bfs_measure, hq2, hv2, hq]
      have hsub : N.toFinset ⊆ allowed g fr \ st.visited := by
        intro x hx
        have hxN := List.mem_toFinset.mp hx
        refine Finset.mem_sdiff.mpr ⟨?_, hnvis x hxN⟩
        show x ∈ insert fr (endPoints g)
        exact Finset.mem_insert_of_mem (hNend x hxN)
      have hcardN : N.toFinset.card = N.length := List.toFinset_card_of_nodup hnd
      have hdiff : (allowed g fr \ (st.visited ∪ N.toFinset)).card =
          (allowed g fr \ st.visited).card - N.length := by
        rw [← Finset.sup_eq_union, ← sdiff_sdiff, Finset.card_sdiff hsub, hcardN]
      have hle2 : N.length ≤ (allowed g fr \ st.visited).card := by
        rw [← hcardN]
        exact Finset.card_le_card hsub
      rw [List.length_append, List.length_cons, hdiff]
      omega

theorem bfs_loop_nil (g : Graph) (fr tgt : String) (fuel : Nat) (st : BfsState)
    (hq : st.queue = []) : bfs_loop g fr tgt (fuel + 1) st = none := by
  rw [bfs_loop, hq]

theorem bfs_loop_cons (g : Graph) (fr tgt : String) (fuel : Nat) (st : BfsState)
    (current : String) (rest : List String) (hq : st.queue = current :: rest) :
    bfs_loop g fr tgt (fuel + 1) st =
      if current = tgt then some (reconstruct_path st.parent fr tgt)
      else bfs_loop g fr tgt fuel
        ((get_node_channels g current).foldl (bfs_relax current)
          ⟨rest, st.visited, st.parent⟩) := by
  rw [bfs_loop, hq]

theorem inv_init (g : Graph) (fr tgt : String) (hne : fr ≠ tgt) :
    Inv g fr tgt ⟨[fr], {fr}, []⟩ := by
  refine ⟨?_, ?_, ?_, ?_, ?_, ?_, ?_, ?_, ?_, ?_, ?_, ?_, ?_⟩
  · intro v hv
    rw [List.mem_singleton.mp hv]
    exact Finset.mem_singleton_self _
  · exact List.nodup_singleton _
  · exact Finset.mem_singleton_self _
  · intro x hx
    rw [Finset.mem_singleton.mp hx]
    show fr ∈ insert fr (endPoints g)
    exact Finset.mem_insert_self _ _
  · intro v
    constructor
    · intro hs
      simp [List.lookup] at hs
    · intro hv2
      obtain ⟨h1, h2⟩ := hv2
      exact absurd (Finset.mem_singleton.mp h1) h2
  · intro pr hpr
    cases hpr
  · intro pr hpr
    cases hpr
  · intro v hv
    rw [Finset.mem_singleton.mp hv]
    exact ⟨[], PChain.nil, List.nodup_nil, Walk.nil⟩
  · intro v l hl n hw
    cases hl with
    | nil => simp
    | cons hlk _ => cases hlk
  · exact ⟨0, 1, 0, [0],
      List.Forall₂.cons ⟨[], PChain.nil, rfl⟩ List.Forall₂.nil, by simp⟩
  · intro u hu hunq w hadj
    exact absurd (by rw [Finset.mem_singleton.mp hu]; exact List.mem_singleton_self _) hunq
  · intro u hu hunq w hadj lu lw h1 h2
    exact absurd (by rw [Finset.mem_singleton.mp hu]; exact List.mem_singleton_self _) hunq
  · intro ht
    exact absurd (Finset.mem_singleton.mp ht) (Ne.symm hne)

theorem init_measure_le (g : Graph) (fr : String) :
    bfs_measure g fr ⟨[fr], {fr}, []⟩ ≤ 2 * g.channels.length + 2 := by
  show [fr].length + (allowed g fr \ ({fr} : Finset String)).card ≤
    2 * g.channels.length + 2
  have h1 : (allowed g fr \ ({fr} : Finset String)).card ≤ (endPoints g).card := by
    apply Finset.card_le_card
    intro x hx
    obtain ⟨hxa, hxf⟩ := Finset.mem_sdiff.mp hx
    have hxa2 : x ∈ insert fr (endPoints g) := hxa
    rcases Finset.mem_insert.mp hxa2 with h | h
    · exact absurd (Finset.mem_singleton.mpr h) hxf
    · exact h
  have h2 := card_endPoints_le g
  simp only [List.length_singleton]
  omega

theorem bfs_loop_none {g : Graph} {fr tgt : String} :
    ∀ (fuel : Nat) (st : BfsState), Inv g fr tgt st →
      bfs_measure g fr st ≤ fuel → bfs_loop g fr tgt fuel st = none →
      ∀ n, ¬ Walk g fr tgt n := by
  intro fuel
  induction fuel with
  | zero =>
    intro st inv hm _ n hw
    have hq0 : st.queue = [] := by
      refine List.length_eq_zero.mp ?_
      rw [bfs_measure] at hm
      omega
    have htv : tgt ∉ st.visited := by
      intro h
      have h2 := inv.hTo h
      rw [hq0] at h2
      cases h2
    exact no_walk_of_queue_nil inv hq0 htv hw
  | succ f ih =>
    intro st inv hm hnone n hw
    rcases hqe : st.queue with _ | ⟨current, rest⟩
    · have htv : tgt ∉ st.visited := by
        intro h
        have h2 := inv.hTo h
        rw [hqe] at h2
        cases h2
      exact no_walk_of_queue_nil inv hqe htv hw
    · rw [bfs_loop_cons g fr tgt f st current rest hqe] at hnone
      by_cases hct : current = tgt
      · rw [if_pos hct] at hnone
        cases hnone
      · rw [if_neg hct] at hnone
        obtain ⟨inv2, hmeas⟩ := inv_step inv hqe hct
        have hm2 : bfs_measure g fr st = st.queue.length + _ := rfl
        rw [hqe] at hm2
        exact ih _ inv2 (by omega) hnone n hw

theorem bfs_loop_some {g : Graph} {fr tgt : String} :
    ∀ (fuel : Nat) (st : BfsState) (p : List String), Inv g fr tgt st →
      bfs_loop g fr tgt fuel st = some p →
      p.head? = some fr ∧ p.getLast? = some tgt ∧
        List.Chain' (fun a b => adjacent g a b) p ∧
        ∀ n, Walk g fr tgt n → p.length ≤ n + 1 := by
  intro fuel
  induction fuel with
  | zero =>
    intro st p _ hsome
    rw [bfs_loop] at hsome
    cases hsome
  | succ f ih =>
    intro st p inv hsome
    rcases hqe : st.queue with _ | ⟨current, rest⟩
    · rw [bfs_loop_nil g fr tgt f st hqe] at hsome
      cases hsome
    · rw [bfs_loop_cons g fr tgt f st current rest hqe] at hsome
      by_cases hct : current = tgt
      · rw [if_pos hct] at hsome
        injection hsome with hp
        subst hp
        have htv : tgt ∈ st.visited := by
          rw [← hct]
          exact inv.hQvis current (by rw [hqe]; exact List.mem_cons_self _ _)
        obtain ⟨lt, hlt, hltnd, hltw⟩ := inv.hChain tgt htv
        have hfrnone : List.lookup fr st.parent = none := by
          rcases ho : List.lookup fr st.parent with _ | q0
          · rfl
          · exact absurd rfl ((inv.hKeys fr).mp (by rw [ho]; rfl)).2
        have hbp : build_path st.parent st.parent.length tgt [] = lt := by
          simpa using build_path_eq hfrnone hlt st.parent.length
            (pchain_length_le hlt hltnd) []
        have hrp : reconstruct_path st.parent fr tgt = (lt ++ [fr]).reverse := by
          rw [reconstruct_path, hbp]
        rw [hrp]
        refine ⟨?_, ?_, ?_, ?_⟩
        · rw [List.head?_reverse]
          exact List.getLast?_concat _
        · rw [List.getLast?_reverse]
          exact pchain_head hlt
        · rw [List.chain'_reverse]
          refine List.Chain'.imp ?_ (pchain_chain_adj inv.hPadj hlt)
          intro a b h
          exact adjacent_symm h
        · intro n hw
          have h4 := inv.hMin tgt lt hlt n hw
          rw [List.length_reverse, List.length_append, List.length_singleton]
          omega
      · rw [if_neg hct] at hsome
        obtain ⟨inv2, -⟩ := inv_step inv hqe hct
        exact ih _ p inv2 hsome

/-- C5: `find_shortest_path` is a correct unweighted BFS over enabled channels
traversed undirected. For `fr = tgt` it returns `some [fr]`; any returned path
starts at `fr`, ends at `tgt`, steps only between nodes joined by an enabled
channel, and has minimal length among all such paths; it returns `none` exactly
when no enabled walk joins `fr` to `tgt`; and on the spec's three-node chain
A-B-C with both edges enabled the A-to-C search yields `["A", "B", "C"]`. -/
theorem find_shortest_path_spec (g : Graph) (fr tgt : String) :
    (fr = tgt → find_shortest_path g fr tgt = some [fr]) ∧
      (∀ p, find_shortest_path g fr tgt = some p →
        p.head? = some fr ∧ p.getLast? = some tgt ∧
          List.Chain' (fun a b => adjacent g a b) p ∧
          ∀ q : List String, q.head? = some fr → q.getLast? = some tgt →
            List.Chain' (fun a b => adjacent g a b) q → p.length ≤ q.length) ∧
      (find_shortest_path g fr tgt = none ↔ ∀ n, ¬ Walk g fr tgt n) ∧
      find_shortest_path chainGraphABC "A" "C" = some ["A", "B", "C"] := by
  by_cases hft : fr = tgt
  · subst hft
    refine ⟨fun _ => by rw [find_shortest_path, if_pos rfl], ?_, ?_, by decide⟩
    · intro p hp
      rw [find_shortest_path, if_pos rfl] at hp
      injection hp with hp2
      subst hp2
      refine ⟨rfl, rfl, by simp, ?_⟩
      intro q hqh hql hqc
      rcases q with _ | ⟨x, xs⟩
      · cases hqh
      · simp
    · constructor
      · intro hnone
        rw [find_shortest_path, if_pos rfl] at hnone
        cases hnone
      · intro hnw
        exact absurd Walk.nil (hnw 0)
  · have hinv := inv_init g fr tgt hft
    refine ⟨fun h => absurd h hft, ?_, ?_, by decide⟩
    · intro p hp
      rw [find_shortest_path, if_neg hft] at hp
      obtain ⟨hh, hl, hc, hmin⟩ := bfs_loop_some _ _ p hinv hp
      refine ⟨hh, hl, hc, ?_⟩
      intro q hqh hql hqc
      have hw := path_to_walk q fr tgt hqh hql hqc
      have h1 := hmin (q.length - 1) hw
      have hqne : q ≠ [] := by
        intro h0
        rw [h0] at hqh
        cases hqh
      have h2 : 1 ≤ q.length := List.length_pos.mpr hqne
      omega
    · constructor
      · intro hnone n hw
        rw [find_shortest_path, if_neg hft] at hnone
        exact bfs_loop_none _ _ hinv (init_measure_le g fr) hnone n hw
      · intro hnw
        rcases hres : find_shortest_path g fr tgt with _ | p
        · rfl
        · rw [find_shortest_path, if_neg hft] at hres
          obtain ⟨hh, hl, hc, -⟩ := bfs_loop_some _ _ p hinv hres
          exact absurd (path_to_walk p fr tgt hh hl hc) (hnw _)

/-- Closed witness for C5: the spec's round-trip examples on the three-node
chain, both read off `find_shortest_path_spec` at concrete inputs. -/
theorem find_shortest_path_spec_witness :
    find_shortest_path chainGraphABC "A" "C" = some ["A", "B", "C"] ∧
      find_shortest_path chainGraphABC "A" "A" = some ["A"] :=
  ⟨(find_shortest_path_spec chainGraphABC "A" "C").2.2.2,
    (find_shortest_path_spec chainGraphABC "A" "A").1 rfl⟩

end NetworkGraph

/-! ## Claims C2, C3, C10 — payment processor -/

namespace PaymentProcessor

theorem lookup_update_payment_status (st : ProcessorState) (payment_id : String)
    (status : PaymentStatus) (error : Option String) (now : Nat) (p : Payment)
    (hp : List.lookup payment_id st.payments = some p) :
    List.lookup payment_id (update_payment_status st payment_id status error now).payments =
      some { p with status := status, updated_at := now, error_message := error } := by
  simp [update_payment_status, lookup_mapModify_self, hp]

theorem process_attempts_all_fail (proc : Processor) (oracle : Nat → AttemptOutcome)
    (payment_id : String) (now : Nat)
    (hfail : ∀ k h s, oracle k ≠ .ok h s) :
    ∀ budget attempts st p, budget ≤ proc.max_retries →
      List.lookup payment_id st.payments = some p →
      (process_attempts proc oracle payment_id now budget attempts st).2.1 =
          attempts + budget + 1 ∧
        List.lookup payment_id
            (process_attempts proc oracle payment_id now budget attempts st).1.payments =
          some { p with status := .Failed, updated_at := now
                        error_message := some (failMessage (oracle (attempts + budget))) } ∧
        (process_attempts proc oracle payment_id now budget attempts st).1.retry_queue =
          st.retry_queue ++ retryItemsFor proc oracle payment_id now budget attempts ∧
        (process_attempts proc oracle payment_id now budget attempts st).2.2 =
          .error (failMessage (oracle (attempts + budget))) := by
  intro budget
  induction budget with
  | zero =>
    intro attempts st p _ hp
    have hlook1 : List.lookup payment_id
        (update_payment_status st payment_id .Processing none now).payments =
        some { p with status := .Processing, updated_at := now, error_message := none } :=
      lookup_update_payment_status st payment_id .Processing none now p hp
    have hatt : attempt_outcome (update_payment_status st payment_id .Processing none now)
        payment_id oracle attempts = oracle attempts := by
      simp [attempt_outcome, get_payment_invoice, hlook1]
    cases houtcome : oracle attempts with
    | ok h s => exact absurd houtcome (hfail attempts h s)
    | err e =>
      simp only [process_attempts, hatt, houtcome]
      refine ⟨by simp, ?_, ?_, ?_⟩
      · simp [update_payment_failure, lookup_mapModify_self, hlook1, failMessage, houtcome]
      · simp [update_payment_failure, update_payment_status, retryItemsFor]
      · simp [failMessage, houtcome]
    | timedOut =>
      simp only [process_attempts, hatt, houtcome]
      refine ⟨by simp, ?_, ?_, ?_⟩
      · simp [update_payment_failure, lookup_mapModify_self, hlook1, failMessage, houtcome]
      · simp [update_payment_failure, update_payment_status, retryItemsFor]
      · simp [failMessage, houtcome]
  | succ b ih =>
    intro attempts st p hb hp
    have hlook1 : List.lookup payment_id
        (update_payment_status st payment_id .Processing none now).payments =
        some { p with status := .Processing, updated_at := now, error_message := none } :=
      lookup_update_payment_status st payment_id .Processing none now p hp
    have hatt : attempt_outcome (update_payment_status st payment_id .Processing none now)
        payment_id oracle attempts = oracle attempts := by
      simp [attempt_outcome, get_payment_invoice, hlook1]
    have hitems : retryItemsFor proc oracle payment_id now (b + 1) attempts =
        { payment_id := payment_id, retry_count := proc.max_retries - b
          next_retry_at := now + 5 * (proc.max_retries - b)
          error := failMessage (oracle attempts) } ::
          retryItemsFor proc oracle payment_id now b (attempts + 1) := by
      rw [retryItemsFor, retryItemsFor, List.range_succ_eq_map, List.map_cons,
        List.map_map]
      have h0 : proc.max_retries - (b + 1) + 0 + 1 = proc.max_retries - b := by omega
      rw [h0]
      simp only [Nat.add_zero]
      congr 1
      apply List.map_congr_left
      intro j _
      have h1 : proc.max_retries - (b + 1) + (j + 1) + 1 = proc.max_retries - b + j + 1 := by
        omega
      simp only [Function.comp]
      rw [h1]
      have h2 : attempts + (j + 1) = attempts + 1 + j := by omega
      rw [h2]
    cases houtcome : oracle attempts with
    | ok h s => exact absurd houtcome (hfail attempts h s)
    | err e =>
      simp only [process_attempts, hatt, houtcome]
      have hp2 : List.lookup payment_id
          (add_to_retry_queue (update_payment_status st payment_id .Processing none now)
            payment_id (proc.max_retries - b) e now).payments =
          some { p with status := .Processing, updated_at := now, error_message := none } :=
        hlook1
      obtain ⟨hc, hl, hq, hr⟩ := ih (attempts + 1)
        (add_to_retry_queue (update_payment_status st payment_id .Processing none now)
          payment_id (proc.max_retries - b) e now)
        { p with status := .Processing, updated_at := now, error_message := none }
        (by omega) hp2
      refine ⟨?_, ?_, ?_, ?_⟩
      · rw [hc]; omega
      · rw [hl]
        have h3 : attempts + 1 + b = attempts + (b + 1) := by omega
        rw [h3]
      · rw [hq, hitems]
        simp [add_to_retry_queue, update_payment_status, houtcome, failMessage]
      · rw [hr]
        have h3 : attempts + 1 + b = attempts + (b + 1) := by omega
        rw [h3]
    | timedOut =>
      simp only [process_attempts, hatt, houtcome]
      have hp2 : List.lookup payment_id
          (add_to_retry_queue (update_payment_status st payment_id .Processing none now)
            payment_id (proc.max_retries - b) "Payment processing timed out" now).payments =
          some { p with status := .Processing, updated_at := now, error_message := none } :=
        hlook1
      obtain ⟨hc, hl, hq, hr⟩ := ih (attempts + 1)
        (add_to_retry_queue (update_payment_status st payment_id .Processing none now)
          payment_id (proc.max_retries - b) "Payment processing timed out" now)
        { p with status := .Processing, updated_at := now, error_message := none }
        (by omega) hp2
      refine ⟨?_, ?_, ?_, ?_⟩
      · rw [hc]; omega
      · rw [hl]
        have h3 : attempts + 1 + b = attempts + (b + 1) := by omega
        rw [h3]
      · rw [hq, hitems]
        simp [add_to_retry_queue, update_payment_status, houtcome, failMessage]
      · rw [hr]
        have h3 : attempts + 1 + b = attempts + (b + 1) := by omega
        rw [h3]

theorem process_attempts_attempts_lt (proc : Processor) (oracle : Nat → AttemptOutcome)
    (payment_id : String) (now : Nat) :
    ∀ budget attempts st,
      attempts < (process_attempts proc oracle payment_id now budget attempts st).2.1 := by
  intro budget
  induction budget with
  | zero =>
    intro attempts st
    rw [process_attempts]
    cases attempt_outcome (update_payment_status st payment_id .Processing none now)
        payment_id oracle attempts <;> simp
  | succ b ih =>
    intro attempts st
    rw [process_attempts]
    cases attempt_outcome (update_payment_status st payment_id .Processing none now)
        payment_id oracle attempts
    · simp
    · exact lt_trans (Nat.lt_succ_self _) (ih _ _)
    · exact lt_trans (Nat.lt_succ_self _) (ih _ _)

theorem retry_fold_mono (proc : Processor) (oracle : String → Nat → AttemptOutcome)
    (now : Nat) :
    ∀ (items : List RetryItem) (acc : ProcessorState × Nat),
      acc.2 ≤ (items.foldl
        (fun acc item =>
          let r := process_payment_async proc (oracle item.payment_id) item.payment_id
            now acc.1
          (r.1, acc.2 + r.2.1))
        acc).2 := by
  intro items
  induction items with
  | nil => intro acc; exact le_refl _
  | cons item rest ih =>
    intro acc
    refine le_trans ?_ (ih _)
    simp only []
    omega

theorem process_retry_queue_attempts_pos (proc : Processor)
    (oracle : String → Nat → AttemptOutcome) (now : Nat) (st : ProcessorState)
    (hdue : ∃ item ∈ st.retry_queue, item.next_retry_at ≤ now) :
    0 < (process_retry_queue proc oracle now st).2 := by
  obtain ⟨item, hmem, hle⟩ := hdue
  have hmemf : item ∈ st.retry_queue.filter (fun item => item.next_retry_at ≤ now) :=
    List.mem_filter.mpr ⟨hmem, by simpa using hle⟩
  rw [process_retry_queue]
  rcases hto : st.retry_queue.filter (fun item => item.next_retry_at ≤ now) with _ | ⟨i, rest⟩
  · rw [hto] at hmemf; cases hmemf
  · rw [hto, List.foldl_cons]
    refine lt_of_lt_of_le ?_ (retry_fold_mono proc oracle now rest _)
    have h := process_attempts_attempts_lt proc (oracle i.payment_id) i.payment_id now proc.max_retries 0 ({ st with retry_queue := List.filter (fun item => decide (now < item.next_retry_at)) st.retry_queue })
    simpa [process_payment_async] using h

/-- C2 (amended): for a payment whose every attempt fails, one run of the
processing loop performs exactly `max_retries + 1` attempts and leaves the
stored payment `Failed` with the last error recorded; the stored `retry_count`
field is NOT written (it keeps its creation value — the attempt counter lives
only in the loop's local variable and in the queued `RetryItem`s); the run
appends `max_retries` retry items for this payment (with counters 1..max) to
the retry queue, and a later drainer tick for which any of those items is due
performs further attempts against the payment. -/
theorem retry_bound_spec (proc : Processor) (oracle : Nat → AttemptOutcome)
    (payment_id : String) (now : Nat) (st : ProcessorState) (p : Payment)
    (hp : List.lookup payment_id st.payments = some p)
    (hfail : ∀ k h s, oracle k ≠ .ok h s) :
    (process_payment_async proc oracle payment_id now st).2.1 = proc.max_retries + 1 ∧
      List.lookup payment_id
          (process_payment_async proc oracle payment_id now st).1.payments =
        some { p with status := .Failed, updated_at := now
                      error_message := some (failMessage (oracle proc.max_retries)) } ∧
      (List.lookup payment_id
          (process_payment_async proc oracle payment_id now st).1.payments).map
        Payment.retry_count = some p.retry_count ∧
      (process_payment_async proc oracle payment_id now st).1.retry_queue =
        st.retry_queue ++ retryItemsFor proc oracle payment_id now proc.max_retries 0 ∧
      (retryItemsFor proc oracle payment_id now proc.max_retries 0).length =
        proc.max_retries ∧
      (∀ item ∈ retryItemsFor proc oracle payment_id now proc.max_retries 0,
        item.payment_id = payment_id) ∧
      (∀ now2 orc2,
        (∃ item ∈ (process_payment_async proc oracle payment_id now st).1.retry_queue,
          item.next_retry_at ≤ now2) →
        0 < (process_retry_queue proc orc2 now2
          (process_payment_async proc oracle payment_id now st).1).2) := by
  obtain ⟨hc, hl, hq, -⟩ := process_attempts_all_fail proc oracle payment_id now hfail
    proc.max_retries 0 st p (le_refl _) hp
  rw [process_payment_async]
  refine ⟨by rw [hc]; omega, by simpa using hl, ?_, hq, by simp [retryItemsFor], ?_, ?_⟩
  · rw [hl]
    simp
  · intro item hitem
    rw [retryItemsFor] at hitem
    obtain ⟨j, -, hj⟩ := List.mem_map.mp hitem
    rw [← hj]
  · intro now2 orc2 hdue
    exact process_retry_queue_attempts_pos proc orc2 now2 _ hdue

/-- Witness for C2 (amended): with the default processor (`max_retries = 3`)
and an all-failing oracle, payment `p1` ends `Failed` after 4 attempts with its
stored `retry_count` still 0, and a drainer tick at `t = 100` (when the queued
items are due) performs further attempts. -/
theorem retry_bound_spec_witness :
    (process_payment_async Processor.new failedOracle "p1" 0 submittedState).2.1 =
        Processor.new.max_retries + 1 ∧
      (List.lookup "p1" allFailState.payments).map Payment.retry_count = some 0 ∧
      0 < (process_retry_queue Processor.new (fun _ _ => .err "still failing") 100
        allFailState).2 := by
  have h := retry_bound_spec Processor.new failedOracle "p1" 0 submittedState
    { payment_id := "p1", wallet_id := "w1", amount_sats := 1000, invoice := "lnbc10n1x"
      description := "test", status := .Pending, payment_hash := "", created_at := 0
      updated_at := 0, retry_count := 0, error_message := none }
    (by decide) (by intro k hh s hk; simp [failedOracle] at hk)
  refine ⟨h.1, ?_, ?_⟩
  · have := h.2.2.1
    simpa [allFailState] using this
  · exact h.2.2.2.2.2.2 100 (fun _ _ => .err "still failing")
      ⟨{ payment_id := "p1", retry_count := 1, next_retry_at := 5
         error := "route not found" }, by decide, by decide⟩

/-- C2 fails as stated: with `max_retries = 3` and every attempt failing, the
payment does reach `Failed` after exactly 4 attempts, but its stored
`retry_count` is 0, not `max_retries`; and the retry queue still holds items
for it, so the background drainer performs further attempts (12 in one tick
at `t = 100`) instead of never touching the payment again. -/
theorem retry_bound_fails_on_code :
    (process_payment_async Processor.new failedOracle "p1" 0 submittedState).2.1 = 4 ∧
      (List.lookup "p1" allFailState.payments).map Payment.status =
        some PaymentStatus.Failed ∧
      ¬ (List.lookup "p1" allFailState.payments).map Payment.retry_count =
        some Processor.new.max_retries ∧
      (List.lookup "p1" allFailState.payments).map Payment.retry_count = some 0 ∧
      allFailState.retry_queue.length = 3 ∧
      ¬ (process_retry_queue Processor.new (fun _ _ => .err "still failing") 100
          allFailState).2 = 0 := by
  decide

/-- C3 (amended): `cancel_payment` refuses exactly for a missing payment or a
`Succeeded` one (leaving the state unchanged); for any other stored payment —
including one already `Failed` or `Cancelled` — it overwrites the status with
`Cancelled`; and the internal `update_payment_status` writes whatever status it
is given regardless of the current one, so `Succeeded`, `Failed` and
`Cancelled` are not final against internal writes. -/
theorem cancel_payment_spec (st : ProcessorState) (payment_id : String) (now : Nat) :
    ((List.lookup payment_id st.payments).map Payment.status = some .Succeeded →
        (cancel_payment st payment_id now).1 = .error "Cannot cancel completed payment" ∧
          (cancel_payment st payment_id now).2 = st) ∧
      (List.lookup payment_id st.payments = none →
        (cancel_payment st payment_id now).1 = .error "Payment not found" ∧
          (cancel_payment st payment_id now).2 = st) ∧
      (∀ p, List.lookup payment_id st.payments = some p → p.status ≠ .Succeeded →
        (cancel_payment st payment_id now).1 =
            .ok { p with status := .Cancelled, updated_at := now } ∧
          List.lookup payment_id (cancel_payment st payment_id now).2.payments =
            some { p with status := .Cancelled, updated_at := now } ∧
          ∀ k, k ≠ payment_id →
            List.lookup k (cancel_payment st payment_id now).2.payments =
              List.lookup k st.payments) ∧
      (∀ p status error, List.lookup payment_id st.payments = some p →
        List.lookup payment_id
            (update_payment_status st payment_id status error now).payments =
          some { p with status := status, updated_at := now, error_message := error }) := by
  refine ⟨?_, ?_, ?_, ?_⟩
  · intro hsucc
    rcases hp : List.lookup payment_id st.payments with _ | p
    · rw [hp] at hsucc; cases hsucc
    · rw [hp] at hsucc
      have hps : p.status = .Succeeded := by simpa using hsucc
      simp only [cancel_payment, hp]
      rw [if_pos hps]
      exact ⟨by trivial, by trivial⟩
  · intro hnone
    simp only [cancel_payment, hnone]
    exact ⟨by trivial, by trivial⟩
  · intro p hp hns
    simp only [cancel_payment, hp]
    rw [if_neg hns]
    refine ⟨rfl, ?_, ?_⟩
    · simp [lookup_mapModify_self, hp]
    · intro k hk
      simp [lookup_mapModify_ne _ _ hk]
  · intro p status error hp
    exact lookup_update_payment_status st payment_id status error now p hp

/-- Witness for C3 (amended): `p1` in the all-failed state is `Failed`, not
`Succeeded`, and cancelling it at `t = 9` overwrites the status with
`Cancelled`. -/
theorem cancel_payment_spec_witness :
    (cancel_payment allFailState "p1" 9).1 =
        .ok { payment_id := "p1", wallet_id := "w1", amount_sats := 1000
              invoice := "lnbc10n1x", description := "test", status := .Cancelled
              payment_hash := "", created_at := 0, updated_at := 9, retry_count := 0
              error_message := some "route not found" } ∧
      List.lookup "p1" (cancel_payment allFailState "p1" 9).2.payments =
        some { payment_id := "p1", wallet_id := "w1", amount_sats := 1000
               invoice := "lnbc10n1x", description := "test", status := .Cancelled
               payment_hash := "", created_at := 0, updated_at := 9, retry_count := 0
               error_message := some "route not found" } := by
  have h := (cancel_payment_spec allFailState "p1" 9).2.2.1
    { payment_id := "p1", wallet_id := "w1", amount_sats := 1000
      invoice := "lnbc10n1x", description := "test", status := .Failed
      payment_hash := "", created_at := 0, updated_at := 0, retry_count := 0
      error_message := some "route not found" }
    (by decide) (by decide)
  exact ⟨h.1, h.2.1⟩

/-- C3 fails as stated: after the all-failing run, `p1` is in the terminal
status `Failed`, yet `cancel_payment` succeeds and changes its status to
`Cancelled` — and the now-`Cancelled` payment can be cancelled once more. So
`Failed` and `Cancelled` are not final, and `Cancelled` is reachable from
terminal states. -/
theorem cancel_overwrites_terminal :
    (List.lookup "p1" allFailState.payments).map Payment.status =
        some PaymentStatus.Failed ∧
      ((cancel_payment allFailState "p1" 9).1.toOption.map Payment.status) =
        some PaymentStatus.Cancelled ∧
      (List.lookup "p1" (cancel_payment allFailState "p1" 9).2.payments).map
          Payment.status = some PaymentStatus.Cancelled ∧
      ((cancel_payment (cancel_payment allFailState "p1" 9).2 "p1" 10).1.toOption.map
          Payment.status) = some PaymentStatus.Cancelled := by
  decide

theorem update_status_rc (st : ProcessorState) (pid : String) (s : PaymentStatus)
    (e : Option String) (now : Nat) (hst : ∀ pr ∈ st.payments, pr.2.retry_count = 0) :
    ∀ pr ∈ (update_payment_status st pid s e now).payments, pr.2.retry_count = 0 := by
  refine @mem_mapModify Payment (fun v => v.retry_count = 0) pid _ st.payments ?_ hst
  intro v hv
  exact hv

theorem update_success_rc (st : ProcessorState) (pid h sst : String) (now : Nat)
    (hst : ∀ pr ∈ st.payments, pr.2.retry_count = 0) :
    ∀ pr ∈ (update_payment_success st pid h sst now).payments, pr.2.retry_count = 0 := by
  refine @mem_mapModify Payment (fun v => v.retry_count = 0) pid _ st.payments ?_ hst
  intro v hv
  exact hv

theorem update_failure_rc (st : ProcessorState) (pid e : String) (now : Nat)
    (hst : ∀ pr ∈ st.payments, pr.2.retry_count = 0) :
    ∀ pr ∈ (update_payment_failure st pid e now).payments, pr.2.retry_count = 0 := by
  refine @mem_mapModify Payment (fun v => v.retry_count = 0) pid _ st.payments ?_ hst
  intro v hv
  exact hv

theorem process_attempts_retry_count (proc : Processor) (oracle : Nat → AttemptOutcome)
    (payment_id : String) (now : Nat) :
    ∀ budget attempts st, (∀ pr ∈ st.payments, pr.2.retry_count = 0) →
      ∀ pr ∈ (process_attempts proc oracle payment_id now budget attempts st).1.payments,
        pr.2.retry_count = 0 := by
  intro budget
  induction budget with
  | zero =>
    intro attempts st hst
    have h1 := update_status_rc st payment_id .Processing none now hst
    rw [process_attempts]
    cases attempt_outcome (update_payment_status st payment_id .Processing none now)
        payment_id oracle attempts with
    | ok h s => exact update_success_rc _ payment_id h s now h1
    | err e => exact update_failure_rc _ payment_id e now h1
    | timedOut => exact update_failure_rc _ payment_id _ now h1
  | succ b ih =>
    intro attempts st hst
    have h1 := update_status_rc st payment_id .Processing none now hst
    rw [process_attempts]
    cases attempt_outcome (update_payment_status st payment_id .Processing none now)
        payment_id oracle attempts with
    | ok h s => exact update_success_rc _ payment_id h s now h1
    | err e => exact ih _ _ h1
    | timedOut => exact ih _ _ h1

theorem retry_fold_retry_count (proc : Processor) (oracle : String → Nat → AttemptOutcome)
    (now : Nat) :
    ∀ (items : List RetryItem) (acc : ProcessorState × Nat),
      (∀ pr ∈ acc.1.payments, pr.2.retry_count = 0) →
      ∀ pr ∈ (items.foldl
          (fun acc item =>
            let r := process_payment_async proc (oracle item.payment_id) item.payment_id
              now acc.1
            (r.1, acc.2 + r.2.1))
          acc).1.payments,
        pr.2.retry_count = 0 := by
  intro items
  induction items with
  | nil => intro acc hacc; exact hacc
  | cons item rest ih =>
    intro acc hacc
    rw [List.foldl_cons]
    exact ih _ (process_attempts_retry_count proc (oracle item.payment_id)
      item.payment_id now proc.max_retries 0 acc.1 hacc)

theorem applyOp_retry_count (proc : Processor) (op : Op) (st : ProcessorState)
    (hst : ∀ pr ∈ st.payments, pr.2.retry_count = 0) :
    ∀ pr ∈ (applyOp proc op st).payments, pr.2.retry_count = 0 := by
  cases op with
  | submit pid w a i d now =>
    refine @mem_mapInsert Payment (fun v => v.retry_count = 0) pid _ st.payments ?_ hst
    rfl
  | runAsync oracle pid now =>
    exact process_attempts_retry_count proc oracle pid now proc.max_retries 0 st hst
  | drainRetryQueue oracle now =>
    exact retry_fold_retry_count proc oracle now _ _ hst
  | cancel pid now =>
    simp only [applyOp]
    rcases hp : List.lookup pid st.payments with _ | payment
    · simp only [cancel_payment, hp]
      exact hst
    · simp only [cancel_payment, hp]
      by_cases hs : payment.status = .Succeeded
      · rw [if_pos hs]; exact hst
      · rw [if_neg hs]
        have hpz : payment.retry_count = 0 := hst (pid, payment) (lookup_mem hp)
        refine @mem_mapModify Payment (fun v => v.retry_count = 0) pid _ st.payments ?_ hst
        intro v _
        exact hpz
  | setStatus pid s e now => exact update_status_rc st pid s e now hst
  | setSuccess pid h s now => exact update_success_rc st pid h s now hst
  | setFailure pid e now => exact update_failure_rc st pid e now hst

/-- C10: the stored `retry_count` field is never written after creation.
`process_payment` creates records with `retry_count = 0`, and no operation of
the processor (the asynchronous processing loop, the retry-queue drainer, the
status/success/failure updates, or `cancel_payment`) modifies the field, so
after any sequence of operations every stored payment still has
`retry_count = 0`; the per-attempt counter exists only as a loop-local value
and inside `RetryItem` entries. -/
theorem retry_count_never_written (proc : Processor) (ops : List Op)
    (st : ProcessorState) (hst : ∀ pr ∈ st.payments, pr.2.retry_count = 0) :
    ∀ pid p, List.lookup pid (runOps proc ops st).payments = some p →
      p.retry_count = 0 := by
  suffices h : ∀ pr ∈ (runOps proc ops st).payments, pr.2.retry_count = 0 by
    intro pid p hp
    exact h (pid, p) (lookup_mem hp)
  induction ops generalizing st with
  | nil => exact hst
  | cons op rest ih =>
    rw [runOps]
    exact ih _ (applyOp_retry_count proc op st hst)

/-- Witness for C10: after submitting `p1`, running the all-failing loop on
it, cancelling it, and draining the queue, its stored `retry_count` is still
0. -/
theorem retry_count_never_written_witness :
    (List.lookup "p1" (runOps Processor.new
        [Op.runAsync failedOracle "p1" 0, Op.cancel "p1" 9,
         Op.drainRetryQueue (fun _ _ => .err "still failing") 100]
        submittedState).payments).map Payment.retry_count = some 0 := by
  have h := retry_count_never_written Processor.new
    [Op.runAsync failedOracle "p1" 0, Op.cancel "p1" 9,
     Op.drainRetryQueue (fun _ _ => .err "still failing") 100]
    submittedState (by decide)
  rcases hl : List.lookup "p1" (runOps Processor.new
      [Op.runAsync failedOracle "p1" 0, Op.cancel "p1" 9,
       Op.drainRetryQueue (fun _ _ => .err "still failing") 100]
      submittedState).payments with _ | p
  · exact absurd hl (by decide)
  · simp [h "p1" p hl]

end PaymentProcessor

end SatsConnect
